import Mathlib

/-!
Verification development for the FEMlium geometry assemblers
(`femlium/base_plotter.py`, `femlium/base_mesh_plotter.py`,
`femlium/domain_plotter.py`, `femlium/base_solution_plotter.py`).

Python floating-point coordinates are embedded as pairs of rationals,
marker ids as naturals (the source asserts they are non-negative),
colors as strings and line weights as integers.  Python insertion-ordered
dictionaries mapping a group key to a list of geometry parts are embedded
as association lists, and runtime `assert` failures are embedded as
`Option.none` results.
-/

namespace FEMlium

/-- Planar coordinates (floating point in the source, rationals here). -/
abbrev Point : Type := ℚ × ℚ

/-- Maximum of a list of naturals; models `np.max` on a non-negative
integer array (meaningful only for nonempty input, as in the source). -/
def maxL (l : List ℕ) : ℕ := l.foldr max 0

/-- First-match association list lookup, used to model Python dict reads. -/
def lookupP {κ P : Type} [DecidableEq κ] : List (κ × P) → κ → Option P
  | [], _ => none
  | (k0, p) :: rest, k => if k = k0 then some p else lookupP rest k

/-- Append one part to the bucket of key `k`, creating the bucket at the end
if absent.  Models `d.setdefault-like` use of a Python insertion-ordered
dict of lists (`if key not in d: d[key] = list(); d[key].append(part)`). -/
def groupInsert {κ π : Type} [DecidableEq κ] : List (κ × List π) → κ → π → List (κ × List π)
  | [], k, p => [(k, [p])]
  | (k0, ps) :: rest, k, p =>
      if k = k0 then (k0, ps ++ [p]) :: rest else (k0, ps) :: groupInsert rest k p

/-- The bucket of key `k` (empty when the key is absent). -/
def lookupG {κ π : Type} [DecidableEq κ] (g : List (κ × List π)) (k : κ) : List π :=
  match lookupP g k with
  | some ps => ps
  | none => []

/-- Fold `groupInsert` over a list of (key, part) pairs. -/
def groupFold {κ π : Type} [DecidableEq κ] (g0 : List (κ × List π)) (pairs : List (κ × π)) :
    List (κ × List π) :=
  pairs.foldl (fun g kp => groupInsert g kp.1 kp.2) g0

/-- Store style properties under key `k`, with the source's runtime assertion:
if the key already holds different properties the call fails
(`assert d[key] == properties`). -/
def propsInsert {κ P : Type} [DecidableEq κ] [DecidableEq P] (ps : List (κ × P)) (k : κ)
    (p : P) : Option (List (κ × P)) :=
  match lookupP ps k with
  | some q => if q = p then some ps else none
  | none => some (ps ++ [(k, p)])

theorem lookupP_append_right {κ P : Type} [DecidableEq κ] (ps : List (κ × P)) (k : κ) (p : P)
    (h : lookupP ps k = none) : lookupP (ps ++ [(k, p)]) k = some p := by
  induction ps with
  | nil => simp [lookupP]
  | cons hd tl ih =>
      obtain ⟨k0, q⟩ := hd
      by_cases hk : k = k0
      · simp [lookupP, hk] at h
      · simp [lookupP, hk] at h ⊢
        exact ih h

theorem lookupP_append_mono {κ P : Type} [DecidableEq κ] (ps rest : List (κ × P)) (k : κ) (q : P)
    (h : lookupP ps k = some q) : lookupP (ps ++ rest) k = some q := by
  induction ps with
  | nil => simp [lookupP] at h
  | cons hd tl ih =>
      obtain ⟨k0, p0⟩ := hd
      by_cases hk : k = k0
      · simp [lookupP, hk] at h ⊢; exact h
      · simp [lookupP, hk] at h ⊢; exact ih h

theorem propsInsert_lookup_self {κ P : Type} [DecidableEq κ] [DecidableEq P]
    {ps ps' : List (κ × P)} {k : κ} {p : P} (h : propsInsert ps k p = some ps') :
    lookupP ps' k = some p := by
  unfold propsInsert at h
  cases hl : lookupP ps k with
  | some q =>
      rw [hl] at h
      by_cases hq : q = p
      · simp [hq] at h; subst h; simpa [hq] using hl
      · simp [hq] at h
  | none =>
      rw [hl] at h
      simp at h
      subst h
      exact lookupP_append_right ps k p hl

theorem propsInsert_lookup_mono {κ P : Type} [DecidableEq κ] [DecidableEq P]
    {ps ps' : List (κ × P)} {k k' : κ} {p q : P} (h : propsInsert ps k p = some ps')
    (hq : lookupP ps k' = some q) : lookupP ps' k' = some q := by
  unfold propsInsert at h
  cases hl : lookupP ps k with
  | some r =>
      rw [hl] at h
      by_cases hr : r = p
      · simp [hr] at h; subst h; exact hq
      · simp [hr] at h
  | none =>
      rw [hl] at h
      simp at h
      subst h
      exact lookupP_append_mono ps [(k, p)] k' q hq

theorem lookupP_mem {κ P : Type} [DecidableEq κ] {ps : List (κ × P)} {k : κ} {q : P}
    (h : lookupP ps k = some q) : (k, q) ∈ ps := by
  induction ps with
  | nil => simp [lookupP] at h
  | cons hd tl ih =>
      obtain ⟨k0, p0⟩ := hd
      by_cases hk : k = k0
      · simp [lookupP, hk] at h
        subst hk; subst h; exact List.mem_cons_self _ _
      · simp [lookupP, hk] at h
        exact List.mem_cons_of_mem _ (ih h)

theorem propsInsert_inv {κ P : Type} [DecidableEq κ] [DecidableEq P] (f : κ → P)
    {ps ps' : List (κ × P)} {k : κ} (h : propsInsert ps k (f k) = some ps')
    (hinv : ∀ kp ∈ ps, kp.2 = f kp.1) : ∀ kp ∈ ps', kp.2 = f kp.1 := by
  unfold propsInsert at h
  cases hl : lookupP ps k with
  | some q =>
      rw [hl] at h
      by_cases hq : q = f k
      · simp [hq] at h; subst h; exact hinv
      · simp [hq] at h
  | none =>
      rw [hl] at h
      simp at h
      subst h
      intro kp hkp
      rcases List.mem_append.mp hkp with h1 | h2
      · exact hinv kp h1
      · simp at h2; subst h2; rfl

/-- Inserting a value that is the canonical value of its key preserves the
"all stored values are canonical" invariant and never fails. -/
theorem propsInsert_canonical {κ P : Type} [DecidableEq κ] [DecidableEq P]
    (f : κ → P) (ps : List (κ × P)) (k : κ)
    (hinv : ∀ kp ∈ ps, kp.2 = f kp.1) :
    ∃ ps', propsInsert ps k (f k) = some ps' ∧ ∀ kp ∈ ps', kp.2 = f kp.1 := by
  unfold propsInsert
  cases hl : lookupP ps k with
  | some q =>
      have hq : q = f k := hinv (k, q) (lookupP_mem hl)
      refine ⟨ps, by simp [hq], hinv⟩
  | none =>
      refine ⟨ps ++ [(k, f k)], rfl, ?_⟩
      intro kp hkp
      rcases List.mem_append.mp hkp with h1 | h2
      · exact hinv kp h1
      · simp at h2; subst h2; rfl

theorem lookupG_groupInsert {κ π : Type} [DecidableEq κ] (g : List (κ × List π)) (k k' : κ)
    (p : π) :
    lookupG (groupInsert g k p) k' = if k' = k then lookupG g k' ++ [p] else lookupG g k' := by
  induction g with
  | nil =>
      by_cases hk : k' = k <;> simp [groupInsert, lookupG, lookupP, hk]
  | cons hd tl ih =>
      obtain ⟨k0, ps⟩ := hd
      by_cases h1 : k = k0
      · subst h1
        by_cases h2 : k' = k <;> simp [groupInsert, lookupG, lookupP, h2]
      · by_cases h2 : k' = k0
        · subst h2
          have hne : ¬ k' = k := fun h => h1 h.symm
          simp [groupInsert, h1, lookupG, lookupP, hne]
        · simp [groupInsert, h1, lookupG, lookupP, h2] at ih ⊢
          exact ih

theorem lookupG_groupFold {κ π : Type} [DecidableEq κ] (pairs : List (κ × π))
    (g0 : List (κ × List π)) (k : κ) :
    lookupG (groupFold g0 pairs) k
      = lookupG g0 k ++ (pairs.filter (fun kp => kp.1 = k)).map Prod.snd := by
  induction pairs generalizing g0 with
  | nil => simp [groupFold]
  | cons hd tl ih =>
      obtain ⟨k0, p0⟩ := hd
      have hstep : groupFold g0 ((k0, p0) :: tl) = groupFold (groupInsert g0 k0 p0) tl := rfl
      rw [hstep, ih]
      rw [lookupG_groupInsert]
      by_cases hk : k = k0
      · subst hk
        simp [List.filter]
      · have hne : ¬ k0 = k := fun h => hk h.symm
        simp [List.filter, hne, hk]

/-- Total number of geometry parts over all buckets. -/
def totalParts {κ π : Type} (g : List (κ × List π)) : ℕ :=
  (g.map (fun kp => kp.2.length)).sum

theorem totalParts_groupInsert {κ π : Type} [DecidableEq κ] (g : List (κ × List π)) (k : κ)
    (p : π) : totalParts (groupInsert g k p) = totalParts g + 1 := by
  induction g with
  | nil => simp [groupInsert, totalParts]
  | cons hd tl ih =>
      obtain ⟨k0, ps⟩ := hd
      by_cases hk : k = k0
      · simp [groupInsert, hk, totalParts]
        omega
      · simp [groupInsert, hk, totalParts] at ih ⊢
        omega

theorem mem_lookupG_groupInsert {κ π : Type} [DecidableEq κ] {g : List (κ × List π)} {k k' : κ}
    {p q : π} (h : q ∈ lookupG (groupInsert g k p) k') : q = p ∨ q ∈ lookupG g k' := by
  rw [lookupG_groupInsert] at h
  by_cases hk : k' = k
  · subst hk
    simp at h
    rcases h with h1 | h2
    · exact Or.inr h1
    · exact Or.inl h2
  · simp [hk] at h
    exact Or.inr h

/-- Keys currently present in a grouping dictionary. -/
def keysOf {κ π : Type} (g : List (κ × List π)) : List κ := g.map Prod.fst

theorem groupInsert_fresh {κ π : Type} [DecidableEq κ] (g : List (κ × List π)) (k : κ) (p : π)
    (h : ¬ k ∈ keysOf g) : groupInsert g k p = g ++ [(k, [p])] := by
  induction g with
  | nil => simp [groupInsert]
  | cons hd tl ih =>
      obtain ⟨k0, ps⟩ := hd
      simp [keysOf] at h
      simp [groupInsert, h.1, ih (by simpa [keysOf] using h.2)]

/-! ## Marker argument normalizer (`base_plotter.py`, `_process_optional_argument_on_markers`) -/

/-- The three accepted shapes of an optional style argument: `None`, a scalar
of the default's type, or a dict from marker id to values of that type
(the `isinstance` assertions of the source are the typing of this datatype). -/
inductive OptArg (T : Type) where
  | none
  | scalar (v : T)
  | mapping (kvs : List (ℕ × T))

/-- The value the normalizer resolves for one marker id. -/
def resolveArg {T : Type} (arg : OptArg T) (dflt : T) (m : ℕ) : T :=
  match arg with
  | OptArg.none => dflt
  | OptArg.scalar v => v
  | OptArg.mapping kvs =>
      match lookupP kvs m with
      | some v => v
      | Option.none => dflt

/-- One iteration of the `for m in unique_markers` loop of
`_process_optional_argument_on_markers`. -/
def processMarkerStep {T : Type} (arg : OptArg T) (out : List T) (m : ℕ) : List T :=
  match arg with
  | OptArg.none => out
  | OptArg.scalar v => out.set m v
  | OptArg.mapping kvs =>
      match lookupP kvs m with
      | some v => out.set m v
      | Option.none => out

/-- `BasePlotter._process_optional_argument_on_markers` (`base_plotter.py`
lines 37-64): start from `np.full(np.max(unique_markers) + 1, default)` and
overwrite the entries of the marker ids found in `unique_markers`.
The `np.min(unique_markers) >= 0` assertion is the `ℕ` typing of markers;
`np.max`/`np.min` on an empty array raise, so callers must pass a nonempty
marker list (the callers' `np.unique` output on nonempty data). -/
def processOptionalArgumentOnMarkers {T : Type} (arg : OptArg T) (dflt : T)
    (uniqueMarkers : List ℕ) : List T :=
  uniqueMarkers.foldl (processMarkerStep arg) (List.replicate (maxL uniqueMarkers + 1) dflt)

theorem length_processMarkerStep {T : Type} (arg : OptArg T) (out : List T) (m : ℕ) :
    (processMarkerStep arg out m).length = out.length := by
  cases arg with
  | none => rfl
  | scalar v => simp [processMarkerStep]
  | mapping kvs =>
      unfold processMarkerStep
      cases hl : lookupP kvs m <;> simp [hl]

theorem length_processFold {T : Type} (arg : OptArg T) (ms : List ℕ) (out : List T) :
    (ms.foldl (processMarkerStep arg) out).length = out.length := by
  induction ms generalizing out with
  | nil => rfl
  | cons m rest ih => rw [List.foldl_cons, ih, length_processMarkerStep]

theorem processMarkerStep_get_ne {T : Type} (arg : OptArg T) (out : List T) (m i : ℕ)
    (h : i ≠ m) : (processMarkerStep arg out m)[i]? = out[i]? := by
  cases arg with
  | none => rfl
  | scalar v => simp [processMarkerStep, List.getElem?_set_ne (Ne.symm h)]
  | mapping kvs =>
      unfold processMarkerStep
      cases hl : lookupP kvs m <;> simp [hl, List.getElem?_set_ne (Ne.symm h)]

theorem setGet {T : Type} (out : List T) (m : ℕ) (v : T) (hm : m < out.length) :
    (out.set m v)[m]? = some v := by
  rw [List.getElem?_set_self', List.getElem?_eq_getElem hm]; rfl

theorem processMarkerStep_get_self {T : Type} (arg : OptArg T) (dflt : T) (out : List T) (m : ℕ)
    (hm : m < out.length)
    (h : out[m]? = some dflt ∨ out[m]? = some (resolveArg arg dflt m)) :
    (processMarkerStep arg out m)[m]? = some (resolveArg arg dflt m) := by
  cases arg with
  | none =>
      rcases h with h | h <;> simpa [processMarkerStep, resolveArg] using h
  | scalar v => simpa [processMarkerStep, resolveArg] using setGet out m v hm
  | mapping kvs =>
      cases hl : lookupP kvs m with
      | none =>
          have hr : resolveArg (OptArg.mapping kvs) dflt m = dflt := by
            simp [resolveArg, hl]
          have hs : processMarkerStep (OptArg.mapping kvs) out m = out := by
            simp [processMarkerStep, hl]
          rw [hr, hs]
          rcases h with h | h
          · exact h
          · rw [hr] at h; exact h
      | some v =>
          have hr : resolveArg (OptArg.mapping kvs) dflt m = v := by
            simp [resolveArg, hl]
          have hs : processMarkerStep (OptArg.mapping kvs) out m = out.set m v := by
            simp [processMarkerStep, hl]
          rw [hr, hs]
          exact setGet out m v hm

theorem processFold_get_notmem {T : Type} (arg : OptArg T) (ms : List ℕ) (out : List T) (i : ℕ)
    (h : ¬ i ∈ ms) : (ms.foldl (processMarkerStep arg) out)[i]? = out[i]? := by
  induction ms generalizing out with
  | nil => rfl
  | cons m rest ih =>
      rw [List.foldl_cons, ih _ (fun hmem => h (List.mem_cons_of_mem _ hmem)),
        processMarkerStep_get_ne arg out m i (fun he => h (he ▸ List.mem_cons_self _ _))]

theorem processFold_get_mem {T : Type} (arg : OptArg T) (dflt : T) (ms : List ℕ) (out : List T)
    (i : ℕ) (hi : i < out.length)
    (hinv : out[i]? = some dflt ∨ out[i]? = some (resolveArg arg dflt i))
    (hmem : i ∈ ms) :
    (ms.foldl (processMarkerStep arg) out)[i]? = some (resolveArg arg dflt i) := by
  induction ms generalizing out with
  | nil => simp at hmem
  | cons m rest ih =>
      rw [List.foldl_cons]
      by_cases hir : i ∈ rest
      · refine ih (processMarkerStep arg out m) ?_ ?_ hir
        · rw [length_processMarkerStep]; exact hi
        · by_cases him : i = m
          · subst him
            exact Or.inr (processMarkerStep_get_self arg dflt out i hi hinv)
          · rw [processMarkerStep_get_ne arg out m i him]; exact hinv
      · have him : i = m := by
          rcases List.mem_cons.mp hmem with h | h
          · exact h
          · exact absurd h hir
        subst him
        rw [processFold_get_notmem arg rest _ i hir]
        exact processMarkerStep_get_self arg dflt out i hi hinv

theorem mem_le_maxL {l : List ℕ} {a : ℕ} (h : a ∈ l) : a ≤ maxL l := by
  induction l with
  | nil => simp at h
  | cons b rest ih =>
      rcases List.mem_cons.mp h with h | h
      · subst h; exact le_max_left _ _
      · exact le_trans (ih h) (le_max_right _ _)

theorem maxL_le {l : List ℕ} {n : ℕ} (h : ∀ a ∈ l, a ≤ n) : maxL l ≤ n := by
  induction l with
  | nil => simp [maxL]
  | cons b rest ih =>
      simp only [maxL, List.foldr_cons, max_le_iff]
      exact ⟨h b (List.mem_cons_self _ _),
        ih (fun a ha => h a (List.mem_cons_of_mem _ ha))⟩

theorem maxL_eq_of_mem_iff {l1 l2 : List ℕ} (h : ∀ a, a ∈ l1 ↔ a ∈ l2) :
    maxL l1 = maxL l2 := by
  refine le_antisymm ?_ ?_
  · exact maxL_le (fun a ha => mem_le_maxL ((h a).mp ha))
  · exact maxL_le (fun a ha => mem_le_maxL ((h a).mpr ha))

theorem length_processOptionalArgumentOnMarkers {T : Type} (arg : OptArg T) (dflt : T)
    (ms : List ℕ) :
    (processOptionalArgumentOnMarkers arg dflt ms).length = maxL ms + 1 := by
  unfold processOptionalArgumentOnMarkers
  rw [length_processFold, List.length_replicate]

theorem processOptionalArgumentOnMarkers_get {T : Type} (arg : OptArg T) (dflt : T)
    (ms : List ℕ) (i : ℕ) (hi : i < maxL ms + 1) :
    (processOptionalArgumentOnMarkers arg dflt ms)[i]?
      = some (if i ∈ ms then resolveArg arg dflt i else dflt) := by
  unfold processOptionalArgumentOnMarkers
  by_cases hmem : i ∈ ms
  · rw [if_pos hmem]
    refine processFold_get_mem arg dflt ms _ i ?_ ?_ hmem
    · simpa using hi
    · exact Or.inl (by simp [List.getElem?_replicate, hi])
  · rw [if_neg hmem, processFold_get_notmem arg ms _ i hmem]
    simp [List.getElem?_replicate, hi]

theorem processOptionalArgumentOnMarkers_perm {T : Type} (arg : OptArg T) (dflt : T)
    (ms ms2 : List ℕ) (hmem : ∀ a, a ∈ ms2 ↔ a ∈ ms) :
    processOptionalArgumentOnMarkers arg dflt ms2 = processOptionalArgumentOnMarkers arg dflt ms := by
  have hmax : maxL ms2 = maxL ms := maxL_eq_of_mem_iff hmem
  apply List.ext_getElem?
  intro i
  by_cases hi : i < maxL ms + 1
  · rw [processOptionalArgumentOnMarkers_get arg dflt ms2 i (by omega),
      processOptionalArgumentOnMarkers_get arg dflt ms i hi]
    by_cases him : i ∈ ms
    · rw [if_pos ((hmem i).mpr him), if_pos him]
    · rw [if_neg (fun hc => him ((hmem i).mp hc)), if_neg him]
  · rw [List.getElem?_eq_none, List.getElem?_eq_none]
    · rw [length_processOptionalArgumentOnMarkers]; omega
    · rw [length_processOptionalArgumentOnMarkers]; omega

/-- C2 counterexample: with the scalar argument `"red"`, default `"black"` and
marker set `{1}`, index `0` of the returned dense array holds the default
`"black"`, not the supplied scalar, refuting the claim that *every* index of
the array holds the supplied value when the argument is a scalar. -/
theorem markerNormalizer_scalar_counterexample :
    processOptionalArgumentOnMarkers (OptArg.scalar "red") "black" [1] = ["black", "red"]
    ∧ ("black" : String) ≠ "red" := by
  refine ⟨rfl, ?_⟩
  decide

/-- C2 (amended): for a nonempty set of non-negative marker ids, the marker
argument normalizer returns a dense array of length `max(marker)+1` in which
every index that is one of the supplied marker ids holds the supplied value
(scalar argument), the mapped value (mapping argument with that key), or the
caller-supplied default; every other index holds the default.  The result
does not depend on the order of the marker ids. -/
theorem markerNormalizer_dense_resolution {T : Type} (arg : OptArg T) (dflt : T)
    (ms : List ℕ) (hne : ms ≠ []) :
    (processOptionalArgumentOnMarkers arg dflt ms).length = maxL ms + 1
    ∧ (∀ m ∈ ms,
        (processOptionalArgumentOnMarkers arg dflt ms)[m]? = some (resolveArg arg dflt m))
    ∧ (∀ i, i < maxL ms + 1 → ¬ i ∈ ms →
        (processOptionalArgumentOnMarkers arg dflt ms)[i]? = some dflt)
    ∧ (∀ ms2, (∀ a, a ∈ ms2 ↔ a ∈ ms) →
        processOptionalArgumentOnMarkers arg dflt ms2
          = processOptionalArgumentOnMarkers arg dflt ms) := by
  refine ⟨length_processOptionalArgumentOnMarkers arg dflt ms, ?_, ?_, ?_⟩
  · intro m hm
    rw [processOptionalArgumentOnMarkers_get arg dflt ms m
      (by have := mem_le_maxL hm; omega), if_pos hm]
  · intro i hi him
    rw [processOptionalArgumentOnMarkers_get arg dflt ms i hi, if_neg him]
  · intro ms2 hmem
    exact processOptionalArgumentOnMarkers_perm arg dflt ms ms2 hmem

/-- Witness for the amended C2 theorem at a concrete input: mapping argument
`{2 ↦ 7}` with default `0` over markers `{1, 2}`. -/
theorem markerNormalizer_dense_resolution_witness :
    ([1, 2] : List ℕ) ≠ []
    ∧ (processOptionalArgumentOnMarkers (OptArg.mapping [(2, 7)]) 0 [1, 2]).length
        = maxL [1, 2] + 1 := by
  refine ⟨by decide, (markerNormalizer_dense_resolution
    (OptArg.mapping [(2, 7)]) 0 [1, 2] (by decide)).1⟩

/-! ## Mesh geometry assembler (`base_mesh_plotter.py`, `_convert_mesh_to_geojson`) -/

/-- Style properties of a mesh cell polygon (the keys of the Python
properties dict built in `_convert_mesh_to_geojson`). -/
structure PolyProps where
  stroke : Bool
  color : Option String
  weight : Option ℤ
  fill : Bool
  fillColor : Option String
  fillOpacity : Option ℕ
deriving DecidableEq

/-- Style properties of a standalone face segment. -/
structure LineProps where
  stroke : Bool
  color : String
  weight : ℤ
deriving DecidableEq

/-- One row of the per-cell loop: connectivity triple, cell marker and the
three face markers of local edges `(v0,v1)`, `(v1,v2)`, `(v0,v2)`. -/
abbrev MeshRow : Type := (ℕ × ℕ × ℕ) × ℕ × (ℕ × ℕ × ℕ)

/-- Inputs shared by every loop iteration: the coordinate transformer, the
vertex coordinate table, and the three dense style tables produced by the
marker argument normalizer (array indexing embedded as application). -/
structure MeshCtx where
  tf : Point → Point
  vertices : ℕ → Point
  cellColors : ℕ → String
  faceColors : ℕ → String
  faceWeights : ℕ → ℤ

/-- `np.unique` of the three face markers has a single element iff they are
all equal. -/
def rowUniform (fm : ℕ × ℕ × ℕ) : Bool :=
  decide (fm.1 = fm.2.1 ∧ fm.1 = fm.2.2)

/-- The projected closed ring of one cell: the three projected vertices with
the first one repeated (`coordinates.append(coordinates[0])`). -/
def cellCoords (ctx : MeshCtx) (cell : ℕ × ℕ × ℕ) : List Point :=
  [ctx.tf (ctx.vertices cell.1), ctx.tf (ctx.vertices cell.2.1),
    ctx.tf (ctx.vertices cell.2.2), ctx.tf (ctx.vertices cell.1)]

/-- Grouping key of a cell: `(cell_marker, all three face markers equal)`. -/
def rowKey (row : MeshRow) : ℕ × Bool := (row.2.1, rowUniform row.2.2)

/-- The properties dict of one cell: boundary properties from the shared
face marker when the three face markers agree (stroke on) and disabled
otherwise, then interior properties from the cell marker's color unless it
is the `"none"` sentinel. -/
def cellProps (ctx : MeshCtx) (cm : ℕ) (fm : ℕ × ℕ × ℕ) : PolyProps :=
  let boundary : PolyProps :=
    if rowUniform fm then
      { stroke := true, color := some (ctx.faceColors fm.1),
        weight := some (ctx.faceWeights fm.1),
        fill := false, fillColor := none, fillOpacity := none }
    else
      { stroke := false, color := none, weight := none,
        fill := false, fillColor := none, fillOpacity := none }
  if ctx.cellColors cm ≠ "none" then
    { boundary with fill := true, fillColor := some (ctx.cellColors cm), fillOpacity := some 1 }
  else
    { boundary with fill := false, fillColor := none, fillOpacity := none }

/-- Properties of a standalone face segment of marker `f`. -/
def faceProps (ctx : MeshCtx) (f : ℕ) : LineProps :=
  { stroke := true, color := ctx.faceColors f, weight := ctx.faceWeights f }

/-- The three standalone edges of a mixed-marker cell, each keyed by its own
face marker, in the source's `((0, 1), (1, 2), (0, 2))` order. -/
def rowFacePairs (ctx : MeshCtx) (row : MeshRow) : List (ℕ × List Point) :=
  [(row.2.2.1, [ctx.tf (ctx.vertices row.1.1), ctx.tf (ctx.vertices row.1.2.1)]),
    (row.2.2.2.1, [ctx.tf (ctx.vertices row.1.2.1), ctx.tf (ctx.vertices row.1.2.2)]),
    (row.2.2.2.2, [ctx.tf (ctx.vertices row.1.1), ctx.tf (ctx.vertices row.1.2.2)])]

/-- Accumulated grouping dictionaries of the conversion loop. -/
structure MeshState where
  polys : List ((ℕ × Bool) × List (List (List Point)))
  polyProps : List ((ℕ × Bool) × PolyProps)
  lines : List (ℕ × List (List Point))
  lineProps : List (ℕ × LineProps)

/-- Record one standalone face: append its 2-point segment to the face
marker's multi-line bucket and assert-store the face properties. -/
def addFace (ctx : MeshCtx) (st : MeshState) (f : ℕ) (seg : List Point) : Option MeshState :=
  match propsInsert st.lineProps f (faceProps ctx f) with
  | Option.none => Option.none
  | some lp =>
      some { st with lines := groupInsert st.lines f seg, lineProps := lp }

/-- The mesh conversion state right after storing one cell's polygon part
and properties (before any standalone face handling). -/
def cellStoredState (ctx : MeshCtx) (st : MeshState) (row : MeshRow)
    (pp : List ((ℕ × Bool) × PolyProps)) : MeshState :=
  { polys := groupInsert st.polys (rowKey row) [cellCoords ctx row.1],
    polyProps := pp, lines := st.lines, lineProps := st.lineProps }

/-- One iteration of the `for c in range(cells.shape[0])` loop of
`_convert_mesh_to_geojson`: store the cell polygon under its key,
assert-store the cell properties, and for mixed face markers additionally
store the three standalone edges. -/
def processCell (ctx : MeshCtx) (st : MeshState) (row : MeshRow) : Option MeshState :=
  match propsInsert st.polyProps (rowKey row) (cellProps ctx row.2.1 row.2.2) with
  | Option.none => Option.none
  | some pp =>
      if rowUniform row.2.2 then
        some (cellStoredState ctx st row pp)
      else
        match rowFacePairs ctx row with
        | [f0, f1, f2] =>
            match addFace ctx (cellStoredState ctx st row pp) f0.1 f0.2 with
            | Option.none => Option.none
            | some s1 =>
                match addFace ctx s1 f1.1 f1.2 with
                | Option.none => Option.none
                | some s2 => addFace ctx s2 f2.1 f2.2
        | _ => Option.none

/-- The whole per-cell loop. -/
def meshLoop (ctx : MeshCtx) : MeshState → List MeshRow → Option MeshState
  | st, [] => some st
  | st, row :: rest =>
      match processCell ctx st row with
      | Option.none => Option.none
      | some st2 => meshLoop ctx st2 rest

def emptyMeshState : MeshState := ⟨[], [], [], []⟩

/-- `_convert_mesh_to_geojson` up to the final feature serialization: the
grouped multipolygon/multiline coordinate and properties dictionaries.
The index-based loop over rows of equal-length arrays is embedded as a loop
over the zipped rows (the caller asserts the shapes agree). -/
def convertMeshGroups (ctx : MeshCtx) (cells : List (ℕ × ℕ × ℕ)) (cellMarkers : List ℕ)
    (faceMarkers : List (ℕ × ℕ × ℕ)) : Option MeshState :=
  meshLoop ctx emptyMeshState (cells.zip (cellMarkers.zip faceMarkers))

/-- Geometry of a mesh feature. -/
inductive MeshGeometry where
  | multiPolygon (coords : List (List (List Point)))
  | multiLineString (coords : List (List Point))
deriving DecidableEq

/-- Properties of a mesh feature. -/
inductive MeshProps where
  | poly (p : PolyProps)
  | line (p : LineProps)
deriving DecidableEq

/-- A geojson feature of the mesh collection. -/
structure MeshFeature where
  geometry : MeshGeometry
  properties : MeshProps
deriving DecidableEq

def dummyPolyProps : PolyProps :=
  { stroke := false, color := none, weight := none,
    fill := false, fillColor := none, fillOpacity := none }

def dummyLineProps : LineProps := { stroke := false, color := "", weight := 0 }

/-- Serialize the grouped dictionaries into the feature collection:
one multipolygon feature per cell key followed by one multiline feature per
standalone face marker, in dictionary insertion order. -/
def meshFeatures (st : MeshState) : List MeshFeature :=
  st.polys.map (fun kp =>
    ⟨MeshGeometry.multiPolygon kp.2, MeshProps.poly ((lookupP st.polyProps kp.1).getD dummyPolyProps)⟩)
  ++ st.lines.map (fun kp =>
    ⟨MeshGeometry.multiLineString kp.2, MeshProps.line ((lookupP st.lineProps kp.1).getD dummyLineProps)⟩)

/-- `_convert_mesh_to_geojson`, returning the feature collection. -/
def convertMeshToGeojson (ctx : MeshCtx) (cells : List (ℕ × ℕ × ℕ)) (cellMarkers : List ℕ)
    (faceMarkers : List (ℕ × ℕ × ℕ)) : Option (List MeshFeature) :=
  (convertMeshGroups ctx cells cellMarkers faceMarkers).map meshFeatures

theorem addFace_spec {ctx : MeshCtx} {st st2 : MeshState} {f : ℕ} {seg : List Point}
    (h : addFace ctx st f seg = some st2) :
    st2.polys = st.polys ∧ st2.polyProps = st.polyProps
    ∧ st2.lines = groupInsert st.lines f seg
    ∧ lookupP st2.lineProps f = some (faceProps ctx f)
    ∧ (∀ k q, lookupP st.lineProps k = some q → lookupP st2.lineProps k = some q)
    ∧ ((∀ kp ∈ st.lineProps, kp.2 = faceProps ctx kp.1) →
        ∀ kp ∈ st2.lineProps, kp.2 = faceProps ctx kp.1) := by
  unfold addFace at h
  cases hp : propsInsert st.lineProps f (faceProps ctx f) with
  | none => rw [hp] at h; cases h
  | some lp =>
      rw [hp] at h
      have h2 : st2 = { st with lines := groupInsert st.lines f seg, lineProps := lp } := by
        injection h with h3; exact h3.symm
      subst h2
      refine ⟨rfl, rfl, rfl, propsInsert_lookup_self hp, ?_, ?_⟩
      · intro k q hq
        exact propsInsert_lookup_mono hp hq
      · intro hinv
        exact propsInsert_inv (faceProps ctx) hp hinv

theorem processCell_spec {ctx : MeshCtx} {st st2 : MeshState} {row : MeshRow}
    (h : processCell ctx st row = some st2) :
    st2.polys = groupInsert st.polys (rowKey row) [cellCoords ctx row.1]
    ∧ lookupP st2.polyProps (rowKey row) = some (cellProps ctx row.2.1 row.2.2)
    ∧ (∀ k q, lookupP st.polyProps k = some q → lookupP st2.polyProps k = some q)
    ∧ (rowUniform row.2.2 = true → st2.lines = st.lines ∧ st2.lineProps = st.lineProps)
    ∧ (rowUniform row.2.2 = false →
        st2.lines = groupFold st.lines (rowFacePairs ctx row)
        ∧ (∀ fp ∈ rowFacePairs ctx row, lookupP st2.lineProps fp.1 = some (faceProps ctx fp.1)))
    ∧ (∀ k q, lookupP st.lineProps k = some q → lookupP st2.lineProps k = some q)
    ∧ ((∀ kp ∈ st.lineProps, kp.2 = faceProps ctx kp.1) →
        ∀ kp ∈ st2.lineProps, kp.2 = faceProps ctx kp.1) := by
  unfold processCell at h
  cases hp : propsInsert st.polyProps (rowKey row) (cellProps ctx row.2.1 row.2.2) with
  | none => rw [hp] at h; cases h
  | some pp =>
      rw [hp] at h
      by_cases hu : rowUniform row.2.2 = true
      · simp only [hu, if_true] at h
        have h2 : st2 = cellStoredState ctx st row pp := by
          injection h with h3; exact h3.symm
        subst h2
        refine ⟨rfl, propsInsert_lookup_self hp, ?_, fun _ => ⟨rfl, rfl⟩, ?_, ?_, ?_⟩
        · intro k q hq; exact propsInsert_lookup_mono hp hq
        · intro hcon; rw [hu] at hcon; cases hcon
        · intro k q hq; exact hq
        · intro hinv; exact hinv
      · rw [Bool.not_eq_true] at hu
        simp only [hu, Bool.false_eq_true, if_false] at h
        simp only [rowFacePairs] at h
        cases h1 : addFace ctx (cellStoredState ctx st row pp)
            row.2.2.1 [ctx.tf (ctx.vertices row.1.1), ctx.tf (ctx.vertices row.1.2.1)] with
        | none => rw [h1] at h; cases h
        | some s1 =>
            rw [h1] at h
            dsimp only at h
            cases h2 : addFace ctx s1 row.2.2.2.1
                [ctx.tf (ctx.vertices row.1.2.1), ctx.tf (ctx.vertices row.1.2.2)] with
            | none => rw [h2] at h; cases h
            | some s2 =>
                rw [h2] at h
                dsimp only at h
                obtain ⟨a1p, a1pp, a1l, a1self, a1mono, a1inv⟩ := addFace_spec h1
                obtain ⟨a2p, a2pp, a2l, a2self, a2mono, a2inv⟩ := addFace_spec h2
                obtain ⟨a3p, a3pp, a3l, a3self, a3mono, a3inv⟩ := addFace_spec h
                refine ⟨?_, ?_, ?_, ?_, ?_, ?_, ?_⟩
                · rw [a3p, a2p, a1p]; rfl
                · rw [a3pp, a2pp, a1pp]
                  exact propsInsert_lookup_self hp
                · intro k q hq
                  rw [a3pp, a2pp, a1pp]
                  exact propsInsert_lookup_mono hp hq
                · intro hcon; rw [hu] at hcon; cases hcon
                · intro _
                  constructor
                  · rw [a3l, a2l, a1l]
                    simp [groupFold, rowFacePairs, cellStoredState]
                  · intro fp hfp
                    simp only [rowFacePairs, List.mem_cons, List.not_mem_nil, or_false] at hfp
                    rcases hfp with hfp | hfp | hfp
                    · subst hfp
                      exact a3mono _ _ (a2mono _ _ a1self)
                    · subst hfp
                      exact a3mono _ _ a2self
                    · subst hfp
                      exact a3self
                · intro k q hq
                  exact a3mono _ _ (a2mono _ _ (a1mono _ _ hq))
                · intro hinv
                  exact a3inv (a2inv (a1inv hinv))

theorem meshLoop_polys (ctx : MeshCtx) (rows : List MeshRow) :
    ∀ st st2, meshLoop ctx st rows = some st2 →
      st2.polys = groupFold st.polys (rows.map (fun r => (rowKey r, [cellCoords ctx r.1]))) := by
  induction rows with
  | nil =>
      intro st st2 h
      injection h with h2
      subst h2
      rfl
  | cons row rest ih =>
      intro st st2 h
      unfold meshLoop at h
      cases hp : processCell ctx st row with
      | none => rw [hp] at h; cases h
      | some stm =>
          rw [hp] at h
          rw [ih stm st2 h, (processCell_spec hp).1]
          rfl

theorem meshLoop_polyProps_mono (ctx : MeshCtx) (rows : List MeshRow) :
    ∀ st st2 k q, meshLoop ctx st rows = some st2 →
      lookupP st.polyProps k = some q → lookupP st2.polyProps k = some q := by
  induction rows with
  | nil =>
      intro st st2 k q h hq
      injection h with h2
      subst h2
      exact hq
  | cons row rest ih =>
      intro st st2 k q h hq
      unfold meshLoop at h
      cases hp : processCell ctx st row with
      | none => rw [hp] at h; cases h
      | some stm =>
          rw [hp] at h
          exact ih stm st2 k q h ((processCell_spec hp).2.2.1 k q hq)

theorem meshLoop_lineProps_mono (ctx : MeshCtx) (rows : List MeshRow) :
    ∀ st st2 k q, meshLoop ctx st rows = some st2 →
      lookupP st.lineProps k = some q → lookupP st2.lineProps k = some q := by
  induction rows with
  | nil =>
      intro st st2 k q h hq
      injection h with h2
      subst h2
      exact hq
  | cons row rest ih =>
      intro st st2 k q h hq
      unfold meshLoop at h
      cases hp : processCell ctx st row with
      | none => rw [hp] at h; cases h
      | some stm =>
          rw [hp] at h
          exact ih stm st2 k q h ((processCell_spec hp).2.2.2.2.2.1 k q hq)

theorem meshLoop_polyProps_of_mem (ctx : MeshCtx) (rows : List MeshRow) :
    ∀ st st2, meshLoop ctx st rows = some st2 → ∀ row ∈ rows,
      lookupP st2.polyProps (rowKey row) = some (cellProps ctx row.2.1 row.2.2) := by
  induction rows with
  | nil => intro st st2 _ row hrow; simp at hrow
  | cons hd rest ih =>
      intro st st2 h row hrow
      unfold meshLoop at h
      cases hp : processCell ctx st hd with
      | none => rw [hp] at h; cases h
      | some stm =>
          rw [hp] at h
          rcases List.mem_cons.mp hrow with hr | hr
          · subst hr
            exact meshLoop_polyProps_mono ctx rest stm st2 _ _ h (processCell_spec hp).2.1
          · exact ih stm st2 h row hr

theorem groupFold_append {κ π : Type} [DecidableEq κ] (g : List (κ × List π))
    (a b : List (κ × π)) : groupFold g (a ++ b) = groupFold (groupFold g a) b := by
  unfold groupFold
  exact List.foldl_append _ _ _ _

theorem meshLoop_lines (ctx : MeshCtx) (rows : List MeshRow) :
    ∀ st st2, meshLoop ctx st rows = some st2 →
      st2.lines = groupFold st.lines (rows.flatMap
        (fun r => if rowUniform r.2.2 then [] else rowFacePairs ctx r)) := by
  induction rows with
  | nil =>
      intro st st2 h
      injection h with h2
      subst h2
      rfl
  | cons row rest ih =>
      intro st st2 h
      unfold meshLoop at h
      cases hp : processCell ctx st row with
      | none => rw [hp] at h; cases h
      | some stm =>
          rw [hp] at h
          rw [ih stm st2 h, List.flatMap_cons]
          by_cases hu : rowUniform row.2.2 = true
          · rw [((processCell_spec hp).2.2.2.1 hu).1, hu]
            simp
          · rw [Bool.not_eq_true] at hu
            rw [((processCell_spec hp).2.2.2.2.1 hu).1, hu]
            simp only [Bool.false_eq_true, if_false]
            rw [groupFold_append]

theorem meshLoop_lineProps_of_mem (ctx : MeshCtx) (rows : List MeshRow) :
    ∀ st st2, meshLoop ctx st rows = some st2 → ∀ row ∈ rows,
      rowUniform row.2.2 = false → ∀ fp ∈ rowFacePairs ctx row,
      lookupP st2.lineProps fp.1 = some (faceProps ctx fp.1) := by
  induction rows with
  | nil => intro st st2 _ row hrow; simp at hrow
  | cons hd rest ih =>
      intro st st2 h row hrow hu fp hfp
      unfold meshLoop at h
      cases hp : processCell ctx st hd with
      | none => rw [hp] at h; cases h
      | some stm =>
          rw [hp] at h
          rcases List.mem_cons.mp hrow with hr | hr
          · subst hr
            exact meshLoop_lineProps_mono ctx rest stm st2 _ _ h
              (((processCell_spec hp).2.2.2.2.1 hu).2 fp hfp)
          · exact ih stm st2 h row hr hu fp hfp

theorem totalParts_groupFold {κ π : Type} [DecidableEq κ] (pairs : List (κ × π)) :
    ∀ g : List (κ × List π), totalParts (groupFold g pairs) = totalParts g + pairs.length := by
  induction pairs with
  | nil => intro g; simp [groupFold]
  | cons kp rest ih =>
      intro g
      have hstep : groupFold g (kp :: rest) = groupFold (groupInsert g kp.1 kp.2) rest := rfl
      rw [hstep, ih, totalParts_groupInsert]
      simp
      omega

theorem mem_lookupG_groupFold {κ π : Type} [DecidableEq κ] (pairs : List (κ × π))
    (g0 : List (κ × List π)) (kp : κ × π) (hkp : kp ∈ pairs) :
    kp.2 ∈ lookupG (groupFold g0 pairs) kp.1 := by
  rw [lookupG_groupFold]
  refine List.mem_append.mpr (Or.inr ?_)
  exact List.mem_map.mpr ⟨kp, List.mem_filter.mpr ⟨hkp, by simp⟩, rfl⟩

theorem cellProps_uniform_fields (ctx : MeshCtx) (cm : ℕ) (fm : ℕ × ℕ × ℕ)
    (hu : rowUniform fm = true) :
    (cellProps ctx cm fm).stroke = true
    ∧ (cellProps ctx cm fm).color = some (ctx.faceColors fm.1)
    ∧ (cellProps ctx cm fm).weight = some (ctx.faceWeights fm.1) := by
  unfold cellProps
  by_cases hc : ctx.cellColors cm = "none" <;> simp [hu, hc]

theorem cellProps_mixed_fields (ctx : MeshCtx) (cm : ℕ) (fm : ℕ × ℕ × ℕ)
    (hu : rowUniform fm = false) :
    (cellProps ctx cm fm).stroke = false
    ∧ (cellProps ctx cm fm).color = none
    ∧ (cellProps ctx cm fm).weight = none := by
  unfold cellProps
  by_cases hc : ctx.cellColors cm = "none" <;> simp [hu, hc]

/-- C1: a cell whose three face markers agree is emitted as one polygon part
in the group keyed `(cell_marker, true)` whose properties have `stroke=true`
and boundary color/weight from the shared face marker's style tables; a cell
with mixed face markers is emitted in the group keyed `(cell_marker, false)`
with `stroke=false` and null boundary color/weight, and its three edges
`(v0,v1)`, `(v1,v2)`, `(v0,v2)` are each emitted as standalone 2-point line
parts keyed by their own face marker, carrying that marker's stroke color
and weight. -/
theorem mesh_cell_polygon_and_edge_emission (ctx : MeshCtx) (cells : List (ℕ × ℕ × ℕ))
    (cms : List ℕ) (fms : List (ℕ × ℕ × ℕ)) (st : MeshState)
    (h : convertMeshGroups ctx cells cms fms = some st)
    (row : MeshRow) (hrow : row ∈ cells.zip (cms.zip fms)) :
    (rowUniform row.2.2 = true →
      [cellCoords ctx row.1] ∈ lookupG st.polys (row.2.1, true)
      ∧ ∃ p, lookupP st.polyProps (row.2.1, true) = some p
          ∧ p.stroke = true ∧ p.color = some (ctx.faceColors row.2.2.1)
          ∧ p.weight = some (ctx.faceWeights row.2.2.1))
    ∧ (rowUniform row.2.2 = false →
      [cellCoords ctx row.1] ∈ lookupG st.polys (row.2.1, false)
      ∧ (∃ p, lookupP st.polyProps (row.2.1, false) = some p
          ∧ p.stroke = false ∧ p.color = none ∧ p.weight = none)
      ∧ (∀ fp ∈ rowFacePairs ctx row,
          fp.2 ∈ lookupG st.lines fp.1
          ∧ lookupP st.lineProps fp.1
              = some { stroke := true, color := ctx.faceColors fp.1,
                       weight := ctx.faceWeights fp.1 })) := by
  have hpolys := meshLoop_polys ctx (cells.zip (cms.zip fms)) emptyMeshState st h
  have hmem : [cellCoords ctx row.1] ∈ lookupG st.polys (rowKey row) := by
    rw [hpolys]
    exact mem_lookupG_groupFold _ _ (rowKey row, [cellCoords ctx row.1])
      (List.mem_map.mpr ⟨row, hrow, rfl⟩)
  have hprops := meshLoop_polyProps_of_mem ctx (cells.zip (cms.zip fms))
    emptyMeshState st h row hrow
  constructor
  · intro hu
    have hkey : rowKey row = (row.2.1, true) := by unfold rowKey; rw [hu]
    rw [hkey] at hmem hprops
    refine ⟨hmem, cellProps ctx row.2.1 row.2.2, hprops, cellProps_uniform_fields ctx _ _ hu⟩
  · intro hu
    have hkey : rowKey row = (row.2.1, false) := by unfold rowKey; rw [hu]
    rw [hkey] at hmem hprops
    refine ⟨hmem, ⟨cellProps ctx row.2.1 row.2.2, hprops, cellProps_mixed_fields ctx _ _ hu⟩, ?_⟩
    intro fp hfp
    constructor
    · have hlines := meshLoop_lines ctx (cells.zip (cms.zip fms)) emptyMeshState st h
      rw [hlines]
      refine mem_lookupG_groupFold _ _ fp (List.mem_flatMap.mpr ⟨row, hrow, ?_⟩)
      rw [hu]
      simpa using hfp
    · exact meshLoop_lineProps_of_mem ctx (cells.zip (cms.zip fms))
        emptyMeshState st h row hrow hu fp hfp

/-- Concrete mesh of the spec's scenario: unit square split in two triangles,
with face markers `[[3,3,3],[3,1,2]]` and marker-styled faces. -/
def ctxW : MeshCtx :=
  { tf := id,
    vertices := fun i =>
      if i = 0 then ((0 : ℚ), (0 : ℚ)) else if i = 1 then (1, 0)
      else if i = 2 then (1, 1) else (0, 1),
    cellColors := fun _ => "none",
    faceColors := fun m =>
      if m = 1 then "blue" else if m = 2 then "red" else if m = 3 then "green" else "black",
    faceWeights := fun m =>
      if m = 1 then 2 else if m = 2 then 3 else if m = 3 then 4 else 1 }

def cellsW : List (ℕ × ℕ × ℕ) := [(0, 1, 2), (0, 2, 3)]

def cmsW : List ℕ := [0, 0]

def fmsW : List (ℕ × ℕ × ℕ) := [(3, 3, 3), (3, 1, 2)]

def stW : MeshState := (convertMeshGroups ctxW cellsW cmsW fmsW).getD emptyMeshState

/-- Witness for C1 on the concrete two-cell mesh: the uniform cell lands in
group `(0, true)` and the mixed cell in group `(0, false)`. -/
theorem mesh_cell_polygon_and_edge_emission_witness :
    [cellCoords ctxW ((0 : ℕ), 1, 2)] ∈ lookupG stW.polys (0, true)
    ∧ [cellCoords ctxW ((0 : ℕ), 2, 3)] ∈ lookupG stW.polys (0, false) := by
  constructor
  · exact ((mesh_cell_polygon_and_edge_emission ctxW cellsW cmsW fmsW stW rfl
      ((0, 1, 2), 0, (3, 3, 3)) (by decide)).1 (by decide)).1
  · exact ((mesh_cell_polygon_and_edge_emission ctxW cellsW cmsW fmsW stW rfl
      ((0, 2, 3), 0, (3, 1, 2)) (by decide)).2 (by decide)).1

/-- C10: for every accepted mesh input, the mesh assembler emits exactly one
polygon ring part per cell (the total over all polygon groups equals the
number of cells), and every ring part is a single ring of exactly 4
coordinate points whose last point equals its first. -/
theorem mesh_one_closed_ring_per_cell (ctx : MeshCtx) (cells : List (ℕ × ℕ × ℕ))
    (cms : List ℕ) (fms : List (ℕ × ℕ × ℕ)) (st : MeshState)
    (hcm : cms.length = cells.length) (hfm : fms.length = cells.length)
    (h : convertMeshGroups ctx cells cms fms = some st) :
    totalParts st.polys = cells.length
    ∧ ∀ k part, part ∈ lookupG st.polys k →
        ∃ ring, part = [ring] ∧ ring.length = 4 ∧ ring.head? = ring.getLast? := by
  have hpolys := meshLoop_polys ctx (cells.zip (cms.zip fms)) emptyMeshState st h
  constructor
  · rw [hpolys, totalParts_groupFold]
    simp [totalParts, emptyMeshState, hcm, hfm]
  · intro k part hpart
    rw [hpolys, lookupG_groupFold] at hpart
    simp only [lookupG, emptyMeshState, lookupP, List.nil_append] at hpart
    obtain ⟨kp, hkp, hsnd⟩ := List.mem_map.mp hpart
    obtain ⟨row, _, hrow⟩ := List.mem_map.mp (List.mem_filter.mp hkp).1
    refine ⟨cellCoords ctx row.1, ?_, rfl, rfl⟩
    rw [← hsnd, ← hrow]

/-- Witness for C10 on the concrete two-cell mesh. -/
theorem mesh_one_closed_ring_per_cell_witness :
    totalParts stW.polys = cellsW.length := by
  exact (mesh_one_closed_ring_per_cell ctxW cellsW cmsW fmsW stW rfl rfl rfl).1

/-! ## Domain outline assembler (`domain_plotter.py`, `_convert_domain_to_geojson`) -/

/-- Style properties of a domain segment group. -/
structure DomainProps where
  color : String
  weight : ℤ
deriving DecidableEq

/-- Transformer and dense style tables of the domain plotter. -/
structure DomainCtx where
  tf : Point → Point
  colors : ℕ → String
  weights : ℕ → ℤ

/-- The properties stored for marker `m`. -/
def domainProps (ctx : DomainCtx) (m : ℕ) : DomainProps :=
  { color := ctx.colors m, weight := ctx.weights m }

/-- Loop state of `_convert_domain_to_geojson`: the two grouping dicts plus
`previous_marker` and the accumulated `previous_coordinates`. -/
structure DomainState where
  groups : List (ℕ × List (List Point))
  props : List (ℕ × DomainProps)
  prevMarker : ℕ
  prevCoords : List Point

/-- `previous_coordinates[-1, :]` (the accumulator is nonempty throughout). -/
def lastD (l : List Point) : Point := l.getLastD (0, 0)

/-- Flush the accumulated polyline into its marker's bucket and assert-store
the marker's properties. -/
def domainFlush (ctx : DomainCtx) (st : DomainState) :
    Option (List (ℕ × List (List Point)) × List (ℕ × DomainProps)) :=
  match propsInsert st.props st.prevMarker (domainProps ctx st.prevMarker) with
  | Option.none => Option.none
  | some pr => some (groupInsert st.groups st.prevMarker st.prevCoords, pr)

/-- One non-final loop iteration (`v < vertices.shape[0] - 1`): on a marker
change, flush and restart the accumulator from its last point; then append
the next projected vertex. -/
def domainStep (ctx : DomainCtx) (st : DomainState) (m : ℕ) (nv : Point) :
    Option DomainState :=
  if m = st.prevMarker then
    some { st with prevCoords := st.prevCoords ++ [nv] }
  else
    match domainFlush ctx st with
    | Option.none => Option.none
    | some gp =>
        some { groups := gp.1, props := gp.2, prevMarker := m,
               prevCoords := [lastD st.prevCoords, nv] }

/-- The scan over all segments followed by the final iteration, where the
`"finalize"` placeholder (distinct from every integer marker) forces the
last flush. -/
def domainLoop (ctx : DomainCtx) : DomainState → List (ℕ × Point) →
    Option (List (ℕ × List (List Point)) × List (ℕ × DomainProps))
  | st, [] => domainFlush ctx st
  | st, (m, nv) :: rest =>
      match domainStep ctx st m nv with
      | Option.none => Option.none
      | some st2 => domainLoop ctx st2 rest

/-- `_convert_domain_to_geojson` up to feature serialization: the loop reads
`segment_markers[0]` and `vertices[0]`, so both must be nonempty; iteration
`v` pairs marker `segment_markers[v]` with projected vertex `v+1`. -/
def convertDomainGroups (ctx : DomainCtx) (vertices : List Point) (sm : List ℕ) :
    Option (List (ℕ × List (List Point)) × List (ℕ × DomainProps)) :=
  match vertices, sm with
  | v0 :: vrest, m0 :: _ =>
      domainLoop ctx ⟨[], [], m0, [ctx.tf v0]⟩ (sm.zip (vrest.map ctx.tf))
  | _, _ => Option.none

/-- Reference run decomposition: maximal runs of consecutive equal markers,
each run's polyline starting at the last point of the previous one. -/
def domainRuns : ℕ → List Point → List (ℕ × Point) → List (ℕ × List Point)
  | pm, acc, [] => [(pm, acc)]
  | pm, acc, (m, p) :: rest =>
      if m = pm then domainRuns pm (acc ++ [p]) rest
      else (pm, acc) :: domainRuns m [lastD acc, p] rest

/-- The marker-tagged edges of one run's polyline. -/
def runEdges (r : ℕ × List Point) : List (ℕ × (Point × Point)) :=
  (r.2.zip r.2.tail).map (fun e => (r.1, e))

/-- The marker-tagged segments of the scanned polyline: step `(m, p)` makes
the segment from the point reached so far to `p`, with marker `m`. -/
def taggedEdges : Point → List (ℕ × Point) → List (ℕ × (Point × Point))
  | _, [] => []
  | start, (m, p) :: rest => (m, (start, p)) :: taggedEdges p rest

theorem domainFlush_spec {ctx : DomainCtx} {st : DomainState} {out}
    (h : domainFlush ctx st = some out) :
    out.1 = groupInsert st.groups st.prevMarker st.prevCoords
    ∧ ((∀ kp ∈ st.props, kp.2 = domainProps ctx kp.1) →
        ∀ kp ∈ out.2, kp.2 = domainProps ctx kp.1) := by
  unfold domainFlush at h
  cases hp : propsInsert st.props st.prevMarker (domainProps ctx st.prevMarker) with
  | none => rw [hp] at h; cases h
  | some pr =>
      rw [hp] at h
      injection h with h2
      subst h2
      exact ⟨rfl, fun hinv => propsInsert_inv (domainProps ctx) hp hinv⟩

theorem domainLoop_groups (ctx : DomainCtx) (steps : List (ℕ × Point)) :
    ∀ st out, domainLoop ctx st steps = some out →
      out.1 = groupFold st.groups (domainRuns st.prevMarker st.prevCoords steps) := by
  induction steps with
  | nil =>
      intro st out h
      rw [(domainFlush_spec h).1]
      rfl
  | cons step rest ih =>
      intro st out h
      obtain ⟨m, nv⟩ := step
      unfold domainLoop at h
      cases hs : domainStep ctx st m nv with
      | none => rw [hs] at h; cases h
      | some st2 =>
          rw [hs] at h
          dsimp only at h
          unfold domainStep at hs
          by_cases hm : m = st.prevMarker
          · rw [if_pos hm] at hs
            injection hs with hs2
            subst hs2
            have hr : domainRuns st.prevMarker st.prevCoords ((m, nv) :: rest)
                = domainRuns st.prevMarker (st.prevCoords ++ [nv]) rest := by
              simp [domainRuns, hm]
            rw [hr]
            exact ih _ out h
          · rw [if_neg hm] at hs
            cases hf : domainFlush ctx st with
            | none => rw [hf] at hs; cases hs
            | some gp =>
                rw [hf] at hs
                dsimp only at hs
                injection hs with hs2
                subst hs2
                have hg := (domainFlush_spec hf).1
                have hr : domainRuns st.prevMarker st.prevCoords ((m, nv) :: rest)
                    = (st.prevMarker, st.prevCoords)
                        :: domainRuns m [lastD st.prevCoords, nv] rest := by
                  simp [domainRuns, hm]
                have hstep : groupFold st.groups
                    ((st.prevMarker, st.prevCoords)
                      :: domainRuns m [lastD st.prevCoords, nv] rest)
                    = groupFold (groupInsert st.groups st.prevMarker st.prevCoords)
                        (domainRuns m [lastD st.prevCoords, nv] rest) := rfl
                rw [hr, hstep, ← hg]
                exact ih _ out h

theorem domainLoop_props (ctx : DomainCtx) (steps : List (ℕ × Point)) :
    ∀ st out, domainLoop ctx st steps = some out →
      (∀ kp ∈ st.props, kp.2 = domainProps ctx kp.1) →
      ∀ kp ∈ out.2, kp.2 = domainProps ctx kp.1 := by
  induction steps with
  | nil =>
      intro st out h hinv
      exact (domainFlush_spec h).2 hinv
  | cons step rest ih =>
      intro st out h hinv
      obtain ⟨m, nv⟩ := step
      unfold domainLoop at h
      cases hs : domainStep ctx st m nv with
      | none => rw [hs] at h; cases h
      | some st2 =>
          rw [hs] at h
          dsimp only at h
          unfold domainStep at hs
          by_cases hm : m = st.prevMarker
          · rw [if_pos hm] at hs
            injection hs with hs2
            subst hs2
            exact ih _ out h hinv
          · rw [if_neg hm] at hs
            cases hf : domainFlush ctx st with
            | none => rw [hf] at hs; cases hs
            | some gp =>
                rw [hf] at hs
                dsimp only at hs
                injection hs with hs2
                subst hs2
                exact ih _ out h ((domainFlush_spec hf).2 hinv)

theorem lastD_append (l : List Point) (p : Point) : lastD (l ++ [p]) = p := by
  simp [lastD]

theorem edges_append (l : List Point) (p : Point) (h : l ≠ []) :
    (l ++ [p]).zip (l ++ [p]).tail = l.zip l.tail ++ [(lastD l, p)] := by
  induction l with
  | nil => cases h rfl
  | cons x rest ih =>
      cases rest with
      | nil => simp [lastD]
      | cons y t =>
          have hih := ih (by simp)
          have hl : ((x :: y :: t) ++ [p]).zip (((x :: y :: t) ++ [p]).tail)
              = (x, y) :: ((y :: t) ++ [p]).zip (((y :: t) ++ [p]).tail) := by
            simp
          rw [hl, hih]
          have hlast : lastD (x :: y :: t) = lastD (y :: t) := by simp [lastD]
          rw [hlast]
          simp

theorem runEdges_append (mk : ℕ) (l : List Point) (p : Point) (h : l ≠ []) :
    runEdges (mk, l ++ [p]) = runEdges (mk, l) ++ [(mk, (lastD l, p))] := by
  unfold runEdges
  rw [edges_append l p h]
  simp

theorem domainRuns_edges (steps : List (ℕ × Point)) :
    ∀ pm acc, acc ≠ [] →
      (domainRuns pm acc steps).flatMap runEdges
        = runEdges (pm, acc) ++ taggedEdges (lastD acc) steps := by
  induction steps with
  | nil =>
      intro pm acc _
      simp [domainRuns, taggedEdges]
  | cons step rest ih =>
      intro pm acc hacc
      obtain ⟨m, p⟩ := step
      by_cases hm : m = pm
      · have hr : domainRuns pm acc ((m, p) :: rest) = domainRuns pm (acc ++ [p]) rest := by
          simp [domainRuns, hm]
        rw [hr, ih pm (acc ++ [p]) (by simp), runEdges_append pm acc p hacc, lastD_append]
        subst hm
        simp [taggedEdges]
      · have hr : domainRuns pm acc ((m, p) :: rest)
            = (pm, acc) :: domainRuns m [lastD acc, p] rest := by
          simp [domainRuns, hm]
        rw [hr, List.flatMap_cons, ih m [lastD acc, p] (by simp)]
        have h2 : runEdges (m, [lastD acc, p]) = [(m, (lastD acc, p))] := rfl
        have h3 : lastD [lastD acc, p] = p := by simp [lastD]
        rw [h2, h3]
        simp [taggedEdges]

theorem domainRuns_head (steps : List (ℕ × Point)) :
    ∀ pm acc, ∃ ext, (domainRuns pm acc steps).head? = some (pm, acc ++ ext) := by
  induction steps with
  | nil =>
      intro pm acc
      exact ⟨[], by simp [domainRuns]⟩
  | cons step rest ih =>
      intro pm acc
      obtain ⟨m, p⟩ := step
      by_cases hm : m = pm
      · obtain ⟨ext, hext⟩ := ih pm (acc ++ [p])
        refine ⟨p :: ext, ?_⟩
        have hr : domainRuns pm acc ((m, p) :: rest) = domainRuns pm (acc ++ [p]) rest := by
          simp [domainRuns, hm]
        rw [hr, hext]
        simp
      · refine ⟨[], ?_⟩
        have hr : domainRuns pm acc ((m, p) :: rest)
            = (pm, acc) :: domainRuns m [lastD acc, p] rest := by
          simp [domainRuns, hm]
        rw [hr]
        simp

theorem domainRuns_marker_chain (steps : List (ℕ × Point)) :
    ∀ pm acc, List.Chain' (fun r1 r2 => r1.1 ≠ r2.1) (domainRuns pm acc steps) := by
  induction steps with
  | nil =>
      intro pm acc
      simp [domainRuns]
  | cons step rest ih =>
      intro pm acc
      obtain ⟨m, p⟩ := step
      by_cases hm : m = pm
      · have hr : domainRuns pm acc ((m, p) :: rest) = domainRuns pm (acc ++ [p]) rest := by
          simp [domainRuns, hm]
        rw [hr]
        exact ih pm (acc ++ [p])
      · have hr : domainRuns pm acc ((m, p) :: rest)
            = (pm, acc) :: domainRuns m [lastD acc, p] rest := by
          simp [domainRuns, hm]
        rw [hr]
        refine List.chain'_cons'.mpr ⟨?_, ih m [lastD acc, p]⟩
        intro y hy
        obtain ⟨ext, hext⟩ := domainRuns_head rest m [lastD acc, p]
        rw [hext] at hy
        injection hy with hy2
        subst hy2
        exact fun hc => hm hc.symm

theorem domainRuns_contiguity (steps : List (ℕ × Point)) :
    ∀ pm acc, List.Chain' (fun r1 r2 => r2.2.head? = some (lastD r1.2)) (domainRuns pm acc steps) := by
  induction steps with
  | nil =>
      intro pm acc
      simp [domainRuns]
  | cons step rest ih =>
      intro pm acc
      obtain ⟨m, p⟩ := step
      by_cases hm : m = pm
      · have hr : domainRuns pm acc ((m, p) :: rest) = domainRuns pm (acc ++ [p]) rest := by
          simp [domainRuns, hm]
        rw [hr]
        exact ih pm (acc ++ [p])
      · have hr : domainRuns pm acc ((m, p) :: rest)
            = (pm, acc) :: domainRuns m [lastD acc, p] rest := by
          simp [domainRuns, hm]
        rw [hr]
        refine List.chain'_cons'.mpr ⟨?_, ih m [lastD acc, p]⟩
        intro y hy
        obtain ⟨ext, hext⟩ := domainRuns_head rest m [lastD acc, p]
        rw [hext] at hy
        injection hy with hy2
        subst hy2
        simp

/-! ## numpy helpers and the legend computation -/

/-- One sorted-unique insertion, building `np.unique` of a marker array. -/
def insertUnique (x : ℕ) : List ℕ → List ℕ
  | [] => [x]
  | y :: ys =>
      if x = y then y :: ys else if x < y then x :: y :: ys else y :: insertUnique x ys

/-- `np.unique`: the sorted deduplicated values of an integer array. -/
def uniqueSorted (l : List ℕ) : List ℕ := l.foldr insertUnique []

theorem mem_insertUnique (x a : ℕ) (l : List ℕ) : a ∈ insertUnique x l ↔ a = x ∨ a ∈ l := by
  induction l with
  | nil => simp [insertUnique]
  | cons y ys ih =>
      by_cases h1 : x = y
      · subst h1
        simp only [insertUnique, if_pos rfl]
        constructor
        · intro h; exact Or.inr h
        · intro h; rcases h with h | h
          · exact h ▸ List.mem_cons_self _ _
          · exact h
      · by_cases h2 : x < y
        · simp [insertUnique, h1, h2, List.mem_cons]
        · simp only [insertUnique, if_neg h1, if_neg h2, List.mem_cons, ih]
          tauto

theorem mem_uniqueSorted (a : ℕ) (l : List ℕ) : a ∈ uniqueSorted l ↔ a ∈ l := by
  induction l with
  | nil => simp [uniqueSorted]
  | cons x xs ih =>
      simp only [uniqueSorted, List.foldr_cons] at ih ⊢
      rw [mem_insertUnique, ih, List.mem_cons]

/-- `np.delete(arr, idxs)`: keep the entries whose position is not in
`idxs` (the source only ever passes in-range index sets). -/
def npDelete {α : Type} [Inhabited α] (l : List α) (idxs : List ℕ) : List α :=
  ((List.range l.length).filter (fun i => ¬ i ∈ idxs)).map (fun i => l.getD i default)

/-- `np.setdiff1d(a, b)`: the entries of `a` not in `b`.  The source only
uses the result as an `np.delete` position set and for emptiness, so the
sorting and deduplication `np.setdiff1d` also performs are immaterial. -/
def setdiff1d (a b : List ℕ) : List ℕ := a.filter (fun x => ¬ x ∈ b)

/-- `np.argwhere(table == value)` flattened to a position list
(the positions holding `value`, in increasing order). -/
def wherePositions (table : List String) (s : String) : List ℕ :=
  (List.range table.length).filter (fun i => table.getD i default = s)

/-- The legend computation shared by face markers (`base_mesh_plotter.py`
lines 129-138) and segment markers (`domain_plotter.py` lines 75-82):
restrict the dense color table to the markers present, then request a
colorbar iff more than one distinct color remains.  The outer `Option` is
the `assert colors.shape == colors_values.shape` check. -/
def faceLegendStep (table : List String) (ms : List ℕ) :
    Option (Option (List String × List ℕ)) :=
  let values := List.range (maxL ms + 1)
  if table.length = values.length then
    let sd := setdiff1d values ms
    let colorsInFigure := npDelete table sd
    let valuesInFigure := npDelete values sd
    some (if 1 < colorsInFigure.dedup.length
      then some (colorsInFigure, valuesInFigure) else Option.none)
  else Option.none

/-- The cell marker legend computation (`base_mesh_plotter.py` lines
115-127): first delete the positions whose color is the `"none"` sentinel,
then delete the `np.setdiff1d` positions, then request a colorbar iff more
than one distinct color remains. -/
def cellLegendStep (table : List String) (ms : List ℕ) :
    Option (Option (List String × List ℕ)) :=
  let values := List.range (maxL ms + 1)
  let whereNone := wherePositions table "none"
  let notNone := npDelete table whereNone
  let valuesNotNone := npDelete values whereNone
  if notNone.length = valuesNotNone.length then
    let sd := setdiff1d valuesNotNone ms
    some (if 1 < (npDelete notNone sd).dedup.length
      then some (npDelete notNone sd, npDelete valuesNotNone sd) else Option.none)
  else Option.none

/-- Calls made to the map sink (folium / branca), in order. -/
inductive SinkAction (F : Type) where
  | geo (features : F)
  | geoArrows (features : F) (frequency : String)
  | colorbar (colors : List String) (values : List ℚ) (caption : String)
deriving DecidableEq

/-- A domain feature: one multi-line geometry plus its properties. -/
structure DomainFeature where
  coordinates : List (List Point)
  properties : DomainProps
deriving DecidableEq

/-- Serialize the domain grouping dicts in insertion order. -/
def domainFeatures (out : List (ℕ × List (List Point)) × List (ℕ × DomainProps)) :
    List DomainFeature :=
  out.1.map (fun kp => ⟨kp.2, (lookupP out.2 kp.1).getD ⟨"", 0⟩⟩)

/-- The style table context `add_domain_to` builds. -/
def domainCtxOf (tf : Point → Point) (colorsArg : OptArg String) (weightsArg : OptArg ℤ)
    (sm : List ℕ) : DomainCtx :=
  { tf := tf,
    colors := fun m =>
      (processOptionalArgumentOnMarkers colorsArg "black" (uniqueSorted sm)).getD m "black",
    weights := fun m =>
      (processOptionalArgumentOnMarkers weightsArg 1 (uniqueSorted sm)).getD m 1 }

/-- The colorbar request made for the segment marker legend, if any. -/
def domainLegendActions (lg : Option (List String × List ℕ)) :
    List (SinkAction (List DomainFeature)) :=
  match lg with
  | Option.none => []
  | some l => [SinkAction.colorbar l.1 (l.2.map (fun v => (v : ℚ))) "Segment markers"]

/-- `DomainPlotter.add_domain_to` as a sink trace: the emitted sink calls in
order, plus a success flag (`false` when the call raises).  Failures before
the geometry is handed to the sink leave the trace empty. -/
def addDomainTrace (tf : Point → Point) (vertices : List Point)
    (smArg : Option (List ℕ)) (colorsArg : OptArg String) (weightsArg : OptArg ℤ) :
    List (SinkAction (List DomainFeature)) × Bool :=
  match (match smArg with
         | Option.none => some (List.replicate (vertices.length - 1) 0)
         | some sm => if sm.length = vertices.length - 1 then some sm else Option.none) with
  | Option.none => ([], false)
  | some sm =>
      match uniqueSorted sm with
      | [] => ([], false)
      | _ :: _ =>
          match convertDomainGroups (domainCtxOf tf colorsArg weightsArg sm) vertices sm with
          | Option.none => ([], false)
          | some out =>
              match faceLegendStep (processOptionalArgumentOnMarkers colorsArg "black"
                  (uniqueSorted sm)) (uniqueSorted sm) with
              | Option.none => ([SinkAction.geo (domainFeatures out)], false)
              | some lg =>
                  ([SinkAction.geo (domainFeatures out)] ++ domainLegendActions lg, true)

/-- C6: the domain assembler partitions the segments of the closed polyline
into maximal runs of consecutive equal markers (adjacent runs have distinct
markers and the tagged edges of the runs are exactly the tagged segments of
the input polyline, in order); each run is flushed as exactly one polyline
part into the multi-line bucket of its marker; each run after the first
begins at the last point of the previous run; all properties stored under a
marker are that marker's color and weight; and the unmarked unit-square
loop with default styling yields a single line feature with color
`"black"` and weight `1` and no legend. -/
theorem domain_run_partition (ctx : DomainCtx) (v0 : Point) (vrest : List Point)
    (m0 : ℕ) (smTail : List ℕ)
    (out : List (ℕ × List (List Point)) × List (ℕ × DomainProps))
    (h : convertDomainGroups ctx (v0 :: vrest) (m0 :: smTail) = some out) :
    (∀ mk, lookupG out.1 mk
        = ((domainRuns m0 [ctx.tf v0] ((m0 :: smTail).zip (vrest.map ctx.tf))).filter
            (fun r => r.1 = mk)).map Prod.snd)
    ∧ (domainRuns m0 [ctx.tf v0] ((m0 :: smTail).zip (vrest.map ctx.tf))).flatMap runEdges
        = taggedEdges (ctx.tf v0) ((m0 :: smTail).zip (vrest.map ctx.tf))
    ∧ List.Chain' (fun r1 r2 => r1.1 ≠ r2.1)
        (domainRuns m0 [ctx.tf v0] ((m0 :: smTail).zip (vrest.map ctx.tf)))
    ∧ List.Chain' (fun r1 r2 => r2.2.head? = some (lastD r1.2))
        (domainRuns m0 [ctx.tf v0] ((m0 :: smTail).zip (vrest.map ctx.tf)))
    ∧ (∀ mk pr, lookupP out.2 mk = some pr → pr = domainProps ctx mk)
    ∧ addDomainTrace id [((0 : ℚ), (0 : ℚ)), (1, 0), (1, 1), (0, 1), (0, 0)]
        Option.none OptArg.none OptArg.none
        = ([SinkAction.geo [⟨[[(0, 0), (1, 0), (1, 1), (0, 1), (0, 0)]], ⟨"black", 1⟩⟩]], true) := by
  unfold convertDomainGroups at h
  dsimp only at h
  refine ⟨?_, ?_, ?_, ?_, ?_, ?_⟩
  · intro mk
    have hg := domainLoop_groups ctx ((m0 :: smTail).zip (vrest.map ctx.tf))
      ⟨[], [], m0, [ctx.tf v0]⟩ out h
    rw [hg, lookupG_groupFold]
    rfl
  · exact domainRuns_edges ((m0 :: smTail).zip (vrest.map ctx.tf)) m0 [ctx.tf v0] (by simp)
  · exact domainRuns_marker_chain ((m0 :: smTail).zip (vrest.map ctx.tf)) m0 [ctx.tf v0]
  · exact domainRuns_contiguity ((m0 :: smTail).zip (vrest.map ctx.tf)) m0 [ctx.tf v0]
  · intro mk pr hpr
    have hinv := domainLoop_props ctx ((m0 :: smTail).zip (vrest.map ctx.tf))
      ⟨[], [], m0, [ctx.tf v0]⟩ out h (by intro kp hkp; simp at hkp)
    exact hinv (mk, pr) (lookupP_mem hpr)
  · rfl

/-- Concrete domain input with a marker change, for the C6 witness. -/
def ctxD : DomainCtx :=
  { tf := id, colors := fun m => if m = 1 then "blue" else "red",
    weights := fun m => (m : ℤ) }

def stepsD : List (ℕ × Point) :=
  [1, 1, 2].zip (([((1 : ℚ), (0 : ℚ)), (1, 1), (0, 0)]).map ctxD.tf)

def outD : List (ℕ × List (List Point)) × List (ℕ × DomainProps) :=
  (convertDomainGroups ctxD [((0 : ℚ), (0 : ℚ)), (1, 0), (1, 1), (0, 0)] [1, 1, 2]).getD ([], [])

/-- Witness for C6 on a 3-segment loop with markers `[1, 1, 2]`. -/
theorem domain_run_partition_witness :
    lookupG outD.1 1 = ((domainRuns 1 [ctxD.tf ((0 : ℚ), (0 : ℚ))] stepsD).filter
        (fun r => r.1 = 1)).map Prod.snd
    ∧ (domainRuns 1 [ctxD.tf ((0 : ℚ), (0 : ℚ))] stepsD).flatMap runEdges
        = taggedEdges (ctxD.tf ((0 : ℚ), (0 : ℚ))) stepsD := by
  have h := domain_run_partition ctxD ((0 : ℚ), (0 : ℚ)) [(1, 0), (1, 1), (0, 0)] 1 [1, 2]
    outD rfl
  exact ⟨h.1 1, h.2.1⟩

theorem map_getD_range {α : Type} [Inhabited α] (l : List α) :
    (List.range l.length).map (fun i => l.getD i default) = l := by
  induction l with
  | nil => rfl
  | cons x t ih =>
      rw [List.length_cons, List.range_succ_eq_map, List.map_cons, List.map_map]
      have h2 : ((fun i => (x :: t).getD i default) ∘ (fun i => i + 1))
          = fun i => t.getD i default := by
        funext i
        rfl
      rw [h2, ih]
      rfl

theorem npDelete_nil {α : Type} [Inhabited α] (l : List α) : npDelete l [] = l := by
  unfold npDelete
  have h : (List.range l.length).filter (fun i => ¬ i ∈ ([] : List ℕ))
      = List.range l.length := by
    apply List.filter_eq_self.mpr
    intro a _
    simp
  rw [h, map_getD_range]

theorem npDelete_range (n : ℕ) (idxs : List ℕ) :
    npDelete (List.range n) idxs = (List.range n).filter (fun i => ¬ i ∈ idxs) := by
  unfold npDelete
  rw [List.length_range]
  refine (List.map_congr_left ?_).trans (List.map_id _)
  intro i hi
  have hlt : i < n := List.mem_range.mp (List.mem_filter.mp hi).1
  rw [List.getD_eq_getElem?_getD, List.getElem?_range hlt]
  rfl

theorem npDelete_length {α : Type} [Inhabited α] (l : List α) (idxs : List ℕ) :
    (npDelete l idxs).length
      = ((List.range l.length).filter (fun i => ¬ i ∈ idxs)).length := by
  simp [npDelete]

theorem npDelete_where (l : List String) :
    npDelete l (wherePositions l "none")
      = ((List.range l.length).filter (fun i => ¬ l.getD i default = "none")).map
          (fun i => l.getD i default) := by
  unfold npDelete
  congr 1
  apply List.filter_congr
  intro i hi
  have hin : i < l.length := List.mem_range.mp hi
  simp [wherePositions, hin]

theorem processOptionalArgumentOnMarkers_getD {T : Type} [Inhabited T] (arg : OptArg T)
    (dflt : T) (ms : List ℕ) (i : ℕ) (hi : i < maxL ms + 1) :
    (processOptionalArgumentOnMarkers arg dflt ms).getD i default
      = if i ∈ ms then resolveArg arg dflt i else dflt := by
  rw [List.getD_eq_getElem?_getD, processOptionalArgumentOnMarkers_get arg dflt ms i hi]
  rfl

theorem sorted_insertUnique (x : ℕ) (l : List ℕ) (h : List.Sorted (· < ·) l) :
    List.Sorted (· < ·) (insertUnique x l) := by
  induction l with
  | nil => simp [insertUnique]
  | cons y ys ih =>
      rw [List.sorted_cons] at h
      by_cases h1 : x = y
      · subst h1
        simpa [insertUnique, List.sorted_cons] using h
      · by_cases h2 : x < y
        · rw [show insertUnique x (y :: ys) = x :: y :: ys by simp [insertUnique, h1, h2]]
          rw [List.sorted_cons]
          refine ⟨?_, List.sorted_cons.mpr h⟩
          intro b hb
          rcases List.mem_cons.mp hb with hb | hb
          · subst hb; exact h2
          · exact lt_trans h2 (h.1 b hb)
        · have hyx : y < x := by omega
          rw [show insertUnique x (y :: ys) = y :: insertUnique x ys by
            simp [insertUnique, h1, h2]]
          rw [List.sorted_cons]
          refine ⟨?_, ih h.2⟩
          intro b hb
          rcases (mem_insertUnique x b ys).mp hb with hb | hb
          · subst hb; exact hyx
          · exact h.1 b hb

theorem sorted_uniqueSorted (l : List ℕ) : List.Sorted (· < ·) (uniqueSorted l) := by
  induction l with
  | nil => simp [uniqueSorted]
  | cons x xs ih => exact sorted_insertUnique x (uniqueSorted xs) ih

theorem sorted_lt_eq_of_perm {l1 l2 : List ℕ} (hp : l1.Perm l2)
    (h1 : List.Sorted (· < ·) l1) (h2 : List.Sorted (· < ·) l2) : l1 = l2 := by
  haveI : IsAntisymm ℕ (· < ·) := ⟨fun a b hab hba => absurd hab (by omega)⟩
  exact List.eq_of_perm_of_sorted hp h1 h2

theorem range_filter_mem_eq (ms : List ℕ) (n : ℕ) (hs : List.Sorted (· < ·) ms)
    (hlt : ∀ m ∈ ms, m < n) :
    (List.range n).filter (fun i => i ∈ ms) = ms := by
  apply sorted_lt_eq_of_perm
  · refine (List.perm_ext_iff_of_nodup (((List.sorted_lt_range n).filter _).nodup) hs.nodup).mpr ?_
    intro a
    simp only [List.mem_filter, List.mem_range, decide_eq_true_eq]
    constructor
    · rintro ⟨_, h2⟩; exact h2
    · intro h2; exact ⟨hlt a h2, h2⟩
  · exact (List.sorted_lt_range n).filter _
  · exact hs

theorem mem_lt_of_sorted_max {ms : List ℕ} {m : ℕ} (hm : m ∈ ms) : m < maxL ms + 1 := by
  have := mem_le_maxL hm
  omega

theorem faceLegendStep_spec (arg : OptArg String) (dflt : String) (ms : List ℕ)
    (hs : List.Sorted (· < ·) ms) :
    faceLegendStep (processOptionalArgumentOnMarkers arg dflt ms) ms
      = some (if 1 < (ms.map (fun m => resolveArg arg dflt m)).dedup.length
          then some (ms.map (fun m => resolveArg arg dflt m), ms) else Option.none) := by
  have hlen := length_processOptionalArgumentOnMarkers arg dflt ms
  have hvalues : npDelete (List.range (maxL ms + 1))
      (setdiff1d (List.range (maxL ms + 1)) ms) = ms := by
    rw [npDelete_range]
    have hcongr : (List.range (maxL ms + 1)).filter
        (fun i => ¬ i ∈ setdiff1d (List.range (maxL ms + 1)) ms)
        = (List.range (maxL ms + 1)).filter (fun i => i ∈ ms) := by
      apply List.filter_congr
      intro i hi
      have hin : i < maxL ms + 1 := List.mem_range.mp hi
      simp [setdiff1d, hin]
    rw [hcongr]
    exact range_filter_mem_eq ms _ hs (fun m hm => mem_lt_of_sorted_max hm)
  have hcolors : npDelete (processOptionalArgumentOnMarkers arg dflt ms)
      (setdiff1d (List.range (maxL ms + 1)) ms)
      = ms.map (fun m => resolveArg arg dflt m) := by
    unfold npDelete
    rw [hlen]
    have hcongr : (List.range (maxL ms + 1)).filter
        (fun i => ¬ i ∈ setdiff1d (List.range (maxL ms + 1)) ms)
        = (List.range (maxL ms + 1)).filter (fun i => i ∈ ms) := by
      apply List.filter_congr
      intro i hi
      have hin : i < maxL ms + 1 := List.mem_range.mp hi
      simp [setdiff1d, hin]
    rw [hcongr, range_filter_mem_eq ms _ hs (fun m hm => mem_lt_of_sorted_max hm)]
    apply List.map_congr_left
    intro m hm
    rw [processOptionalArgumentOnMarkers_getD arg dflt ms m (mem_lt_of_sorted_max hm),
      if_pos hm]
  unfold faceLegendStep
  dsimp only
  rw [if_pos (by rw [hlen, List.length_range])]
  rw [hcolors, hvalues]

theorem cellLegendStep_spec (arg : OptArg String) (ms : List ℕ)
    (hs : List.Sorted (· < ·) ms) :
    cellLegendStep (processOptionalArgumentOnMarkers arg "none" ms) ms
      = some (if 1 < ((ms.filter (fun m => ¬ resolveArg arg "none" m = "none")).map
            (fun m => resolveArg arg "none" m)).dedup.length
          then some ((ms.filter (fun m => ¬ resolveArg arg "none" m = "none")).map
              (fun m => resolveArg arg "none" m),
            ms.filter (fun m => ¬ resolveArg arg "none" m = "none"))
          else Option.none) := by
  have hlen := length_processOptionalArgumentOnMarkers arg "none" ms
  have hmemlt : ∀ m ∈ ms, m < maxL ms + 1 := fun m hm => mem_lt_of_sorted_max hm
  have htbl : ∀ i < maxL ms + 1,
      (processOptionalArgumentOnMarkers arg "none" ms).getD i default
        = if i ∈ ms then resolveArg arg "none" i else "none" :=
    fun i hi => processOptionalArgumentOnMarkers_getD arg "none" ms i hi
  -- the not-"none" position filter over the full range equals the
  -- present-marker filter by the table characterization
  have hfilter : (List.range (maxL ms + 1)).filter
      (fun i => ¬ (processOptionalArgumentOnMarkers arg "none" ms).getD i default = "none")
      = ms.filter (fun m => ¬ resolveArg arg "none" m = "none") := by
    apply sorted_lt_eq_of_perm
    · refine (List.perm_ext_iff_of_nodup (((List.sorted_lt_range _).filter _).nodup)
        ((hs.filter _).nodup)).mpr ?_
      intro a
      simp only [List.mem_filter, List.mem_range, decide_eq_true_eq]
      constructor
      · rintro ⟨ha, h2⟩
        rw [htbl a ha] at h2
        by_cases ham : a ∈ ms
        · rw [if_pos ham] at h2; exact ⟨ham, h2⟩
        · rw [if_neg ham] at h2; exact absurd rfl h2
      · rintro ⟨ham, h2⟩
        refine ⟨hmemlt a ham, ?_⟩
        rw [htbl a (hmemlt a ham), if_pos ham]
        exact h2
    · exact (List.sorted_lt_range _).filter _
    · exact hs.filter _
  have hvaluesNotNone : npDelete (List.range (maxL ms + 1))
      (wherePositions (processOptionalArgumentOnMarkers arg "none" ms) "none")
      = ms.filter (fun m => ¬ resolveArg arg "none" m = "none") := by
    rw [npDelete_range]
    rw [← hfilter]
    apply List.filter_congr
    intro i hi
    have hin : i < maxL ms + 1 := List.mem_range.mp hi
    simp [wherePositions, hlen, hin]
  have hnotNone : npDelete (processOptionalArgumentOnMarkers arg "none" ms)
      (wherePositions (processOptionalArgumentOnMarkers arg "none" ms) "none")
      = (ms.filter (fun m => ¬ resolveArg arg "none" m = "none")).map
          (fun m => resolveArg arg "none" m) := by
    rw [npDelete_where, hlen, hfilter]
    apply List.map_congr_left
    intro m hm
    have hmm : m ∈ ms := (List.mem_filter.mp hm).1
    rw [htbl m (hmemlt m hmm), if_pos hmm]
  have hsubset : setdiff1d (ms.filter (fun m => ¬ resolveArg arg "none" m = "none")) ms
      = [] := by
    unfold setdiff1d
    rw [List.filter_eq_nil_iff]
    intro a ha
    have : a ∈ ms := (List.mem_filter.mp ha).1
    simp [this]
  unfold cellLegendStep
  dsimp only
  rw [hnotNone, hvaluesNotNone]
  rw [if_pos (by simp), hsubset, npDelete_nil, npDelete_nil]

/-! ## `add_mesh_to` as a sink trace (`base_mesh_plotter.py` lines 74-138) -/

/-- `np.unique(face_markers)`: the matrix is flattened row-major. -/
def uniqueFaceMarkers (fm : List (ℕ × ℕ × ℕ)) : List ℕ :=
  uniqueSorted (fm.flatMap (fun t => [t.1, t.2.1, t.2.2]))

/-- The conversion context `add_mesh_to` builds: the three dense style
tables produced by the marker argument normalizer, read by indexing. -/
def meshCtxOf (tf : Point → Point) (vertices : ℕ → Point)
    (ccArg fcArg : OptArg String) (fwArg : OptArg ℤ)
    (cm : List ℕ) (fm : List (ℕ × ℕ × ℕ)) : MeshCtx :=
  { tf := tf, vertices := vertices,
    cellColors := fun m =>
      (processOptionalArgumentOnMarkers ccArg "none" (uniqueSorted cm)).getD m "none",
    faceColors := fun m =>
      (processOptionalArgumentOnMarkers fcArg "black" (uniqueFaceMarkers fm)).getD m "black",
    faceWeights := fun m =>
      (processOptionalArgumentOnMarkers fwArg 1 (uniqueFaceMarkers fm)).getD m 1 }

/-- The colorbar request made for one computed legend, if any. -/
def legendActions (lg : Option (List String × List ℕ)) (caption : String) :
    List (SinkAction (List MeshFeature)) :=
  match lg with
  | Option.none => []
  | some l => [SinkAction.colorbar l.1 (l.2.map (fun v => (v : ℚ))) caption]

/-- `BaseMeshPlotter.add_mesh_to` as a sink trace: marker defaulting and
shape checks, style table construction, geojson conversion and the two
marker legends, with the sink calls emitted in source order and a success
flag. -/
def addMeshTrace (tf : Point → Point) (vertices : ℕ → Point) (cells : List (ℕ × ℕ × ℕ))
    (cmArg : Option (List ℕ)) (fmArg : Option (List (ℕ × ℕ × ℕ)))
    (ccArg fcArg : OptArg String) (fwArg : OptArg ℤ) :
    List (SinkAction (List MeshFeature)) × Bool :=
  match (match cmArg with
         | Option.none => some (List.replicate cells.length 0)
         | some cm => if cm.length = cells.length then some cm else Option.none) with
  | Option.none => ([], false)
  | some cm =>
      match (match fmArg with
             | Option.none => some (List.replicate cells.length ((0, 0, 0) : ℕ × ℕ × ℕ))
             | some fm => if fm.length = cells.length then some fm else Option.none) with
      | Option.none => ([], false)
      | some fm =>
          match uniqueSorted cm, uniqueFaceMarkers fm with
          | _ :: _, _ :: _ =>
              match convertMeshToGeojson (meshCtxOf tf vertices ccArg fcArg fwArg cm fm)
                  cells cm fm with
              | Option.none => ([], false)
              | some feats =>
                  match cellLegendStep (processOptionalArgumentOnMarkers ccArg "none"
                      (uniqueSorted cm)) (uniqueSorted cm) with
                  | Option.none => ([SinkAction.geo feats], false)
                  | some cellLg =>
                      match faceLegendStep (processOptionalArgumentOnMarkers fcArg "black"
                          (uniqueFaceMarkers fm)) (uniqueFaceMarkers fm) with
                      | Option.none =>
                          ([SinkAction.geo feats] ++ legendActions cellLg "Cell markers", false)
                      | some faceLg =>
                          ([SinkAction.geo feats] ++ legendActions cellLg "Cell markers"
                            ++ legendActions faceLg "Face markers", true)
          | _, _ => ([], false)

/-- Concrete mesh for C5: three cells with cell markers `0, 1, 2`, cell
color mapping `{1: red, 2: blue}` (marker 0 keeps the `"none"` default),
default face styling. -/
def cmC5 : List ℕ := [0, 1, 2]

def cellsC5 : List (ℕ × ℕ × ℕ) := [(0, 0, 0), (0, 0, 0), (0, 0, 0)]

def fmC5 : List (ℕ × ℕ × ℕ) := [(0, 0, 0), (0, 0, 0), (0, 0, 0)]

def ccC5 : OptArg String := OptArg.mapping [(1, "red"), (2, "blue")]

def ctxC5 : MeshCtx :=
  meshCtxOf id (fun _ => ((0 : ℚ), (0 : ℚ))) ccC5 OptArg.none OptArg.none cmC5 fmC5

def featsC5 : List MeshFeature := (convertMeshToGeojson ctxC5 cellsC5 cmC5 fmC5).getD []

/-- C5 counterexample: on the `cmC5` mesh a cell marker legend *is*
requested, but its value list `[1, 2]` omits the present marker `0` (whose
resolved color is the `"none"` sentinel), refuting the claim that the
legend's value list contains exactly the markers present in the data. -/
theorem mesh_legend_counterexample :
    SinkAction.colorbar ["red", "blue"] [(1 : ℚ), 2] "Cell markers"
      ∈ (addMeshTrace id (fun _ => ((0 : ℚ), (0 : ℚ))) cellsC5 (some cmC5) (some fmC5)
          ccC5 OptArg.none OptArg.none).1
    ∧ (0 : ℕ) ∈ cmC5 ∧ ¬ ((0 : ℚ)) ∈ [(1 : ℚ), 2] := by
  refine ⟨by decide, by decide, by decide⟩

/-- C5 (amended): after a successful conversion the mesh trace adds the
geometry and then requests a cell marker legend iff more than one distinct
color (excluding the `"none"` sentinel) appears among the markers present,
with color/value lists containing exactly the present cell markers whose
resolved color is not `"none"`; and a face marker legend iff more than one
distinct face color appears among the present face markers, with
color/value lists containing exactly the present face markers.  A
single-marker mesh with default styling produces no legend. -/
theorem mesh_legend_characterization (tf : Point → Point) (vertices : ℕ → Point)
    (cells : List (ℕ × ℕ × ℕ)) (cm : List ℕ) (fm : List (ℕ × ℕ × ℕ))
    (ccArg fcArg : OptArg String) (fwArg : OptArg ℤ) (feats : List MeshFeature)
    (hcm : cm.length = cells.length) (hfm : fm.length = cells.length)
    (hu1 : uniqueSorted cm ≠ []) (hu2 : uniqueFaceMarkers fm ≠ [])
    (hconv : convertMeshToGeojson (meshCtxOf tf vertices ccArg fcArg fwArg cm fm)
        cells cm fm = some feats) :
    addMeshTrace tf vertices cells (some cm) (some fm) ccArg fcArg fwArg
      = ([SinkAction.geo feats]
          ++ legendActions
              (if 1 < (((uniqueSorted cm).filter
                    (fun m => ¬ resolveArg ccArg "none" m = "none")).map
                  (fun m => resolveArg ccArg "none" m)).dedup.length
                then some ((((uniqueSorted cm).filter
                      (fun m => ¬ resolveArg ccArg "none" m = "none")).map
                    (fun m => resolveArg ccArg "none" m)),
                  (uniqueSorted cm).filter (fun m => ¬ resolveArg ccArg "none" m = "none"))
                else Option.none) "Cell markers"
          ++ legendActions
              (if 1 < ((uniqueFaceMarkers fm).map
                    (fun m => resolveArg fcArg "black" m)).dedup.length
                then some ((uniqueFaceMarkers fm).map (fun m => resolveArg fcArg "black" m),
                  uniqueFaceMarkers fm)
                else Option.none) "Face markers", true)
    ∧ (∀ (tf2 : Point → Point) (vs : List Point) (sm : List ℕ) (colorsArg : OptArg String)
        (weightsArg : OptArg ℤ)
        (out : List (ℕ × List (List Point)) × List (ℕ × DomainProps)),
        sm.length = vs.length - 1 → uniqueSorted sm ≠ [] →
        convertDomainGroups (domainCtxOf tf2 colorsArg weightsArg sm) vs sm = some out →
        addDomainTrace tf2 vs (some sm) colorsArg weightsArg
          = ([SinkAction.geo (domainFeatures out)]
              ++ domainLegendActions
                (if 1 < ((uniqueSorted sm).map
                      (fun m => resolveArg colorsArg "black" m)).dedup.length
                  then some ((uniqueSorted sm).map (fun m => resolveArg colorsArg "black" m),
                    uniqueSorted sm)
                  else Option.none), true))
    ∧ (addMeshTrace id (fun _ => ((0 : ℚ), (0 : ℚ))) [(0, 1, 2)] Option.none Option.none
        OptArg.none OptArg.none OptArg.none).1.length = 1 := by
  refine ⟨?_, ?_, ?_⟩
  · obtain ⟨mc, restc, huc⟩ : ∃ a l, uniqueSorted cm = a :: l := by
      cases h : uniqueSorted cm with
      | nil => exact absurd h hu1
      | cons a l => exact ⟨a, l, rfl⟩
    obtain ⟨mf, restf, huf⟩ : ∃ a l, uniqueFaceMarkers fm = a :: l := by
      cases h : uniqueFaceMarkers fm with
      | nil => exact absurd h hu2
      | cons a l => exact ⟨a, l, rfl⟩
    have hsc : List.Sorted (· < ·) (mc :: restc) := huc ▸ sorted_uniqueSorted cm
    have hsf : List.Sorted (· < ·) (mf :: restf) :=
      huf ▸ sorted_uniqueSorted (fm.flatMap (fun t => [t.1, t.2.1, t.2.2]))
    unfold addMeshTrace
    dsimp only
    rw [if_pos hcm, if_pos hfm]
    dsimp only
    rw [huc, huf, hconv]
    dsimp only
    rw [cellLegendStep_spec ccArg (mc :: restc) hsc]
    dsimp only
    rw [faceLegendStep_spec fcArg "black" (mf :: restf) hsf]
  · intro tf2 vs sm colorsArg weightsArg out hlen hne hconv2
    obtain ⟨ms, restm, hus⟩ : ∃ a l, uniqueSorted sm = a :: l := by
      cases h : uniqueSorted sm with
      | nil => exact absurd h hne
      | cons a l => exact ⟨a, l, rfl⟩
    have hss : List.Sorted (· < ·) (ms :: restm) := hus ▸ sorted_uniqueSorted sm
    unfold addDomainTrace
    dsimp only
    rw [if_pos hlen]
    dsimp only
    rw [hus, hconv2]
    dsimp only
    rw [faceLegendStep_spec colorsArg "black" (ms :: restm) hss]
  · decide

/-- Witness for the amended C5 theorem on the `cmC5` multi-marker mesh. -/
theorem mesh_legend_characterization_witness :
    (addMeshTrace id (fun _ => ((0 : ℚ), (0 : ℚ))) cellsC5 (some cmC5) (some fmC5)
      ccC5 OptArg.none OptArg.none).2 = true := by
  rw [(mesh_legend_characterization id (fun _ => ((0 : ℚ), (0 : ℚ))) cellsC5 cmC5 fmC5 ccC5
    OptArg.none OptArg.none featsC5 rfl rfl (by decide) (by decide) rfl).1]

/-! ## Field contour assembler (`base_solution_plotter.py`) -/

/-- Style properties of an iso-line (and quiver segment) group. -/
structure ContourLineProps where
  color : String
  weight : ℤ
deriving DecidableEq

/-- Style properties of a filled contour band group. -/
structure ContourPolyProps where
  fillColor : String
  fillOpacity : ℕ
deriving DecidableEq

/-- The external `matplotlib._tri.TriContourGenerator`, abstracted by its
two query methods (built from the triangulation and one scalar field). -/
structure TriContourGen where
  createContour : ℚ → List (List Point)
  createFilledContour : ℚ → ℚ → (List Point × List ℕ)

/-- `np.split(arr, positions)` for sorted in-range positions. -/
def npSplit {α : Type} (l : List α) : List ℕ → ℕ → List (List α)
  | [], start => [l.drop start]
  | p :: ps, start => ((l.drop start).take (p - start)) :: npSplit l ps p

/-- `np.where(kinds == 1)[0][1:]`: positions of the ring-start markers,
without the first. -/
def splitPositions (kinds : List ℕ) : List ℕ :=
  ((List.range kinds.length).filter (fun i => kinds.getD i 0 = 1)).drop 1

/-- `np.vstack((piece, piece[0, :]))`: close a ring by repeating its first
point; an empty piece raises (`piece[0]` is an IndexError). -/
def closeRing (curve : List Point) : Option (List Point) :=
  match curve with
  | [] => Option.none
  | p :: rest => some ((p :: rest) ++ [p])

/-- The closed rings of the band between `levels[lev]` and `levels[lev+1]`:
query the generator, split the flat point array at the ring-start markers,
and close every ring. -/
def contourfRings (gen : TriContourGen) (levels : List ℚ) (lev : ℕ) :
    Option (List (List Point)) :=
  let fc := gen.createFilledContour (levels.getD lev 0) (levels.getD (lev + 1) 0)
  (npSplit fc.1 (splitPositions fc.2) 0).mapM closeRing

/-- Inner loop of the `"contour"` branch: store every polyline with more
than one point under the level index, with the level's color and weight 2. -/
def contourCurves (tf : Point → Point) (colors : List String) (lev : ℕ) :
    (List (ℕ × List (List Point)) × List (ℕ × ContourLineProps)) → List (List Point) →
    Option (List (ℕ × List (List Point)) × List (ℕ × ContourLineProps))
  | s, [] => some s
  | s, curve :: rest =>
      if 1 < curve.length then
        match propsInsert s.2 lev ⟨colors.getD lev "", 2⟩ with
        | Option.none => Option.none
        | some pr => contourCurves tf colors lev (groupInsert s.1 lev (curve.map tf), pr) rest
      else contourCurves tf colors lev s rest

/-- Outer loop of the `"contour"` branch over the level indices. -/
def contourLoop (tf : Point → Point) (gen : TriContourGen) (levels : List ℚ)
    (colors : List String) :
    (List (ℕ × List (List Point)) × List (ℕ × ContourLineProps)) → List ℕ →
    Option (List (ℕ × List (List Point)) × List (ℕ × ContourLineProps))
  | s, [] => some s
  | s, lev :: rest =>
      match contourCurves tf colors lev s (gen.createContour (levels.getD lev 0)) with
      | Option.none => Option.none
      | some s2 => contourLoop tf gen levels colors s2 rest

/-- The `"contour"` branch of `_convert_scalar_field_to_geojson`. -/
def convertScalarContour (tf : Point → Point) (gen : TriContourGen) (levels : List ℚ)
    (colors : List String) :
    Option (List (ℕ × List (List Point)) × List (ℕ × ContourLineProps)) :=
  contourLoop tf gen levels colors ([], []) (List.range levels.length)

/-- Inner loop of the `"contourf"` branch: store every closed ring with more
than two points as a one-ring polygon part under the band index, with the
band's color at full opacity. -/
def contourfCurves (tf : Point → Point) (colors : List String) (lev : ℕ) :
    (List (ℕ × List (List (List Point))) × List (ℕ × ContourPolyProps)) → List (List Point) →
    Option (List (ℕ × List (List (List Point))) × List (ℕ × ContourPolyProps))
  | s, [] => some s
  | s, curve :: rest =>
      if 2 < curve.length then
        match propsInsert s.2 lev ⟨colors.getD lev "", 1⟩ with
        | Option.none => Option.none
        | some pr => contourfCurves tf colors lev (groupInsert s.1 lev [curve.map tf], pr) rest
      else contourfCurves tf colors lev s rest

/-- Outer loop of the `"contourf"` branch over consecutive level pairs. -/
def contourfLoop (tf : Point → Point) (gen : TriContourGen) (levels : List ℚ)
    (colors : List String) :
    (List (ℕ × List (List (List Point))) × List (ℕ × ContourPolyProps)) → List ℕ →
    Option (List (ℕ × List (List (List Point))) × List (ℕ × ContourPolyProps))
  | s, [] => some s
  | s, lev :: rest =>
      match contourfRings gen levels lev with
      | Option.none => Option.none
      | some rings =>
          match contourfCurves tf colors lev s rings with
          | Option.none => Option.none
          | some s2 => contourfLoop tf gen levels colors s2 rest

/-- The `"contourf"` branch of `_convert_scalar_field_to_geojson`. -/
def convertScalarContourf (tf : Point → Point) (gen : TriContourGen) (levels : List ℚ)
    (colors : List String) :
    Option (List (ℕ × List (List (List Point))) × List (ℕ × ContourPolyProps)) :=
  contourfLoop tf gen levels colors ([], []) (List.range (levels.length - 1))

/-- A feature of the scalar/vector field collection. -/
inductive ScalarFeature where
  | line (coordinates : List (List Point)) (properties : ContourLineProps)
  | poly (coordinates : List (List (List Point))) (properties : ContourPolyProps)
deriving DecidableEq

/-- `_convert_scalar_field_to_geojson`: dispatch on the mode and serialize
the grouped dictionaries in insertion order. -/
def convertScalarFieldToGeojson (tf : Point → Point) (gen : TriContourGen) (mode : String)
    (levels : List ℚ) (colors : List String) : Option (List ScalarFeature) :=
  if mode = "contour" then
    (convertScalarContour tf gen levels colors).map (fun s =>
      s.1.map (fun kp => ScalarFeature.line kp.2 ((lookupP s.2 kp.1).getD ⟨"", 0⟩)))
  else if mode = "contourf" then
    (convertScalarContourf tf gen levels colors).map (fun s =>
      s.1.map (fun kp => ScalarFeature.poly kp.2 ((lookupP s.2 kp.1).getD ⟨"", 0⟩)))
  else Option.none

/-- The rendered leaflet style of a contour feature, from the
`style_function` of `add_scalar_field_to` (lines 89-106): polygon features
are drawn with the stroke disabled. -/
structure RenderedContourStyle where
  stroke : Option Bool
  color : Option String
  weight : Option ℤ
  fillColor : Option String
  fillOpacity : Option ℕ
deriving DecidableEq

/-- `style_function`: a `MultiPolygon` renders with `stroke = False` plus
its fill properties; a `MultiLineString` renders with its color and
weight. -/
def scalarStyleFunction (f : ScalarFeature) : RenderedContourStyle :=
  match f with
  | ScalarFeature.poly _ p =>
      { stroke := some false, color := Option.none, weight := Option.none,
        fillColor := some p.fillColor, fillOpacity := some p.fillOpacity }
  | ScalarFeature.line _ p =>
      { stroke := Option.none, color := some p.color, weight := some p.weight,
        fillColor := Option.none, fillOpacity := Option.none }

/-! ## `add_scalar_field_to` / `add_vector_field_to` as sink traces -/

/-- The `levels` argument: an integer count or explicit values. -/
inductive LevelsArg where
  | count (n : ℕ)
  | values (vs : List ℚ)

/-- The `cmap` argument: a registered colormap name, or an already resolved
colormap object (as passed internally by the vector entry point). -/
inductive CmapArg where
  | named (s : String)
  | resolved (f : ℚ → String)

/-- `np.linspace(a, b, n)` over rationals. -/
def linspace (a b : ℚ) (n : ℕ) : List ℚ :=
  if n = 0 then []
  else if n = 1 then [a]
  else (List.range n).map (fun i => a + (b - a) * i / (n - 1))

/-- `arr.min()`; fails on an empty array. -/
def fieldMin (nV : ℕ) (f : ℕ → ℚ) : Option ℚ :=
  match (List.range nV).map f with
  | [] => Option.none
  | x :: xs => some (xs.foldl min x)

/-- `arr.max()`; fails on an empty array. -/
def fieldMax (nV : ℕ) (f : ℕ → ℚ) : Option ℚ :=
  match (List.range nV).map f with
  | [] => Option.none
  | x :: xs => some (xs.foldl max x)

/-- `plt.Normalize(vmin=l0, vmax=ln)` applied to `x` (rational division,
with `q / 0 = 0` standing in for the degenerate float case). -/
def cnorm (l0 ln x : ℚ) : ℚ := (x - l0) / (ln - l0)

/-- Level resolution shared by the two entry points: an integer count makes
evenly spaced values between field minimum and maximum; explicit values are
used directly. -/
def resolveLevels (nV : ℕ) (field : ℕ → ℚ) (levelsArg : LevelsArg) : Option (List ℚ) :=
  match levelsArg with
  | LevelsArg.count n =>
      match fieldMin nV field, fieldMax nV field with
      | some a, some b => some (linspace a b n)
      | _, _ => Option.none
  | LevelsArg.values vs => some vs

/-- `plt.get_cmap(name, lut=levels.shape[0])`, abstracted by a registry, or
the already-resolved colormap. -/
def resolveCmap (registry : String → ℕ → (ℚ → String)) (cmapArg : CmapArg) (lutSize : ℕ) :
    ℚ → String :=
  match cmapArg with
  | CmapArg.named s => registry s lutSize
  | CmapArg.resolved f => f

/-- `BaseSolutionPlotter.add_scalar_field_to` as a sink trace: mode check,
level and colormap resolution, per-level hex colors, conversion, geometry
add and the always-requested colorbar. -/
def addScalarFieldTrace (registry : String → ℕ → (ℚ → String))
    (factory : (ℕ → ℚ) → TriContourGen) (tf : Point → Point) (nV : ℕ) (field : ℕ → ℚ)
    (modeArg : Option String) (levelsArg : Option LevelsArg) (cmapArg : Option CmapArg)
    (nameArg : Option String) : List (SinkAction (List ScalarFeature)) × Bool :=
  let mode := modeArg.getD "contourf"
  if mode = "contourf" ∨ mode = "contour" then
    match resolveLevels nV field (levelsArg.getD (LevelsArg.count 10)) with
    | Option.none => ([], false)
    | some levels =>
        match levels with
        | [] => ([], false)
        | l0 :: _ =>
            let cmapF := resolveCmap registry (cmapArg.getD (CmapArg.named "jet")) levels.length
            let colors := levels.map (fun lev => cmapF (cnorm l0 (levels.getLastD l0) lev))
            let name := nameArg.getD "Scalar field"
            match convertScalarFieldToGeojson tf (factory field) mode levels colors with
            | Option.none => ([], false)
            | some feats =>
                ([SinkAction.geo feats, SinkAction.colorbar colors levels name], true)
  else ([], false)

/-- Componentwise point addition (`vertices[v, :] + ...`). -/
def pAdd (a b : Point) : Point := (a.1 + b.1, a.2 + b.2)

/-- Scalar rescaling of a vector (`scale * vector_field[v, :]`). -/
def pScale (s : ℚ) (a : Point) : Point := (s * a.1, s * a.2)

/-- The per-vertex loop of `_convert_vector_field_to_geojson`: one 2-point
segment from the projected vertex to the projected advected point, grouped
by the exact hex color string of the vertex magnitude, with weight 2.
A missing `scale` raises (`None * array`) at the first vertex. -/
def quiverLoop (tf : Point → Point) (vertices : ℕ → Point) (vf : ℕ → Point) (mag : ℕ → ℚ)
    (scaleArg : Option ℚ) (cmap : ℚ → String) :
    (List (String × List (List Point)) × List (String × ContourLineProps)) → List ℕ →
    Option (List (String × List (List Point)) × List (String × ContourLineProps))
  | s, [] => some s
  | s, v :: rest =>
      match scaleArg with
      | Option.none => Option.none
      | some scale =>
          let coords : List Point :=
            [tf (vertices v), tf (pAdd (vertices v) (pScale scale (vf v)))]
          let color := cmap (mag v)
          match propsInsert s.2 color ⟨color, 2⟩ with
          | Option.none => Option.none
          | some pr =>
              quiverLoop tf vertices vf mag scaleArg cmap (groupInsert s.1 color coords, pr) rest

/-- `_convert_vector_field_to_geojson` up to feature serialization. -/
def convertVectorFieldGroups (tf : Point → Point) (vertices : ℕ → Point) (nV : ℕ)
    (vf : ℕ → Point) (mag : ℕ → ℚ) (scaleArg : Option ℚ) (cmap : ℚ → String) :
    Option (List (String × List (List Point)) × List (String × ContourLineProps)) :=
  quiverLoop tf vertices vf mag scaleArg cmap ([], []) (List.range nV)

/-- Serialize the quiver groups: one multi-line feature per color string. -/
def quiverFeatures (out : List (String × List (List Point)) × List (String × ContourLineProps)) :
    List ScalarFeature :=
  out.1.map (fun kp => ScalarFeature.line kp.2 ((lookupP out.2 kp.1).getD ⟨"", 0⟩))

/-- `BaseSolutionPlotter.add_vector_field_to` as a sink trace: magnitude,
level and colormap resolution, then either delegation to the scalar entry
point (contour modes) or the quiver conversion with the arrow-decorated
geojson overlay (`frequency="endonly"`) and the colorbar. -/
def addVectorFieldTrace (registry : String → ℕ → (ℚ → String))
    (factory : (ℕ → ℚ) → TriContourGen) (tf : Point → Point) (vertices : ℕ → Point)
    (nV : ℕ) (vf : ℕ → Point) (norm2 : Point → ℚ) (modeArg : Option String)
    (levelsArg : Option LevelsArg) (scaleArg : Option ℚ) (cmapArg : Option CmapArg)
    (nameArg : Option String) : List (SinkAction (List ScalarFeature)) × Bool :=
  let mode := modeArg.getD "contourf"
  if mode = "contourf" ∨ mode = "contour" ∨ mode = "quiver" then
    match resolveLevels nV (fun v => norm2 (vf v)) (levelsArg.getD (LevelsArg.count 10)) with
    | Option.none => ([], false)
    | some levels =>
        match levels with
        | [] => ([], false)
        | l0 :: _ =>
            let cmapF := resolveCmap registry (cmapArg.getD (CmapArg.named "jet")) levels.length
            let name := nameArg.getD "Vector field"
            if mode = "contourf" ∨ mode = "contour" then
              addScalarFieldTrace registry factory tf nV (fun v => norm2 (vf v)) (some mode)
                (some (LevelsArg.values levels)) (some (CmapArg.resolved cmapF)) (some name)
            else
              match convertVectorFieldGroups tf vertices nV vf (fun v => norm2 (vf v)) scaleArg
                  (fun lev => cmapF (cnorm l0 (levels.getLastD l0) lev)) with
              | Option.none => ([], false)
              | some qout =>
                  ([SinkAction.geoArrows (quiverFeatures qout) "endonly",
                    SinkAction.colorbar
                      (levels.map (fun lev => cmapF (cnorm l0 (levels.getLastD l0) lev)))
                      levels name], true)
  else ([], false)

/-- C8: in `contour`/`contourf` mode the vector-field entry point produces
exactly the sink trace of the scalar-field entry point applied to the
per-vertex Euclidean norm of the field, with the same mode, levels and
colormap arguments and the caption the vector entry point resolves. -/
theorem vector_contour_refines_scalar (registry : String → ℕ → (ℚ → String))
    (factory : (ℕ → ℚ) → TriContourGen) (tf : Point → Point) (vertices : ℕ → Point)
    (nV : ℕ) (vf : ℕ → Point) (norm2 : Point → ℚ) (modeArg : Option String)
    (levelsArg : Option LevelsArg) (scaleArg : Option ℚ) (cmapArg : Option CmapArg)
    (nameArg : Option String)
    (hmode : modeArg.getD "contourf" = "contourf" ∨ modeArg.getD "contourf" = "contour") :
    addVectorFieldTrace registry factory tf vertices nV vf norm2 modeArg levelsArg scaleArg
        cmapArg nameArg
      = addScalarFieldTrace registry factory tf nV (fun v => norm2 (vf v)) modeArg levelsArg
          cmapArg (some (nameArg.getD "Vector field")) := by
  rcases hmode with h | h
  · unfold addVectorFieldTrace addScalarFieldTrace
    dsimp only
    rw [h]
    simp only [String.reduceEq, or_false, false_or, or_true, true_or, if_true, reduceIte]
    cases hL : resolveLevels nV (fun v => norm2 (vf v)) (levelsArg.getD (LevelsArg.count 10)) with
    | none => rfl
    | some levels =>
        cases levels with
        | nil => rfl
        | cons l0 rest => rfl
  · unfold addVectorFieldTrace addScalarFieldTrace
    dsimp only
    rw [h]
    simp only [String.reduceEq, or_false, false_or, or_true, true_or, if_true, reduceIte]
    cases hL : resolveLevels nV (fun v => norm2 (vf v)) (levelsArg.getD (LevelsArg.count 10)) with
    | none => rfl
    | some levels =>
        cases levels with
        | nil => rfl
        | cons l0 rest => rfl

/-- C8 witness at a concrete one-vertex vector field in `contour` mode. -/
def registryW : String → ℕ → (ℚ → String) := fun s _ _ => s

def factoryW : (ℕ → ℚ) → TriContourGen :=
  fun f => ⟨fun _ => [[(f 0, 0), (f 0, 1)]], fun _ _ => ([(0, 0), (1, 0), (0, 1)], [1, 0, 0])⟩

theorem vector_contour_refines_scalar_witness :
    addVectorFieldTrace registryW factoryW id (fun _ => ((0 : ℚ), (0 : ℚ))) 1
        (fun _ => ((3 : ℚ), (4 : ℚ))) (fun p => p.1 + p.2) (some "contour") Option.none
        Option.none Option.none Option.none
      = addScalarFieldTrace registryW factoryW id 1
          (fun v => (fun p : Point => p.1 + p.2) ((fun _ => ((3 : ℚ), (4 : ℚ))) v))
          (some "contour") Option.none Option.none (some "Vector field") :=
  vector_contour_refines_scalar registryW factoryW id (fun _ => ((0 : ℚ), (0 : ℚ))) 1
    (fun _ => ((3 : ℚ), (4 : ℚ))) (fun p => p.1 + p.2) (some "contour") Option.none
    Option.none Option.none Option.none (Or.inr rfl)

theorem quiverLoop_spec (tf : Point → Point) (vertices : ℕ → Point) (vf : ℕ → Point)
    (mag : ℕ → ℚ) (scale : ℚ) (cmap : ℚ → String) (vs : List ℕ) :
    ∀ s out, quiverLoop tf vertices vf mag (some scale) cmap s vs = some out →
      out.1 = groupFold s.1 (vs.map (fun v => (cmap (mag v),
        [tf (vertices v), tf (pAdd (vertices v) (pScale scale (vf v)))])))
      ∧ ((∀ kp ∈ s.2, kp.2 = (⟨kp.1, 2⟩ : ContourLineProps)) →
          ∀ kp ∈ out.2, kp.2 = (⟨kp.1, 2⟩ : ContourLineProps)) := by
  induction vs with
  | nil =>
      intro s out h
      injection h with h2
      subst h2
      exact ⟨rfl, fun hinv => hinv⟩
  | cons v rest ih =>
      intro s out h
      unfold quiverLoop at h
      dsimp only at h
      cases hp : propsInsert s.2 (cmap (mag v)) ⟨cmap (mag v), 2⟩ with
      | none => rw [hp] at h; cases h
      | some pr =>
          rw [hp] at h
          dsimp only at h
          obtain ⟨hg, hpr⟩ := ih _ out h
          constructor
          · rw [hg]
            rfl
          · intro hinv
            refine hpr ?_
            exact propsInsert_inv (fun c => (⟨c, 2⟩ : ContourLineProps)) hp hinv

/-- C9: in quiver mode every vertex contributes exactly one 2-point segment
from the projected vertex to the projected advected point, colored by the
vertex magnitude through the colormap; the bucket of each color string
holds exactly the segments of the vertices mapping to that color (so equal
color strings are merged into one multi-part feature), the total number of
segments equals the number of vertices, every stored property record is
`{color, weight 2}`, and the sink receives the features through the
arrow-decorated overlay with `frequency="endonly"` followed by the
colorbar. -/
theorem quiver_segments_per_vertex (tf : Point → Point) (vertices : ℕ → Point) (nV : ℕ)
    (vf : ℕ → Point) (mag : ℕ → ℚ) (scale : ℚ) (cmap : ℚ → String)
    (qout : List (String × List (List Point)) × List (String × ContourLineProps))
    (h : convertVectorFieldGroups tf vertices nV vf mag (some scale) cmap = some qout) :
    (∀ col, lookupG qout.1 col
        = ((List.range nV).filter (fun v => cmap (mag v) = col)).map
            (fun v => [tf (vertices v), tf (pAdd (vertices v) (pScale scale (vf v)))]))
    ∧ totalParts qout.1 = nV
    ∧ (∀ col p, lookupP qout.2 col = some p → p = (⟨col, 2⟩ : ContourLineProps))
    ∧ (∀ (registry : String → ℕ → (ℚ → String)) (factory : (ℕ → ℚ) → TriContourGen)
        (norm2 : Point → ℚ) (levelsArg : Option LevelsArg) (cmapArg : Option CmapArg)
        (nameArg : Option String) (l0 : ℚ) (lrest : List ℚ)
        (qout2 : List (String × List (List Point)) × List (String × ContourLineProps)),
        resolveLevels nV (fun v => norm2 (vf v)) (levelsArg.getD (LevelsArg.count 10))
          = some (l0 :: lrest) →
        convertVectorFieldGroups tf vertices nV vf (fun v => norm2 (vf v)) (some scale)
          (fun lev => resolveCmap registry (cmapArg.getD (CmapArg.named "jet"))
            (l0 :: lrest).length (cnorm l0 ((l0 :: lrest).getLastD l0) lev)) = some qout2 →
        addVectorFieldTrace registry factory tf vertices nV vf norm2 (some "quiver")
            levelsArg (some scale) cmapArg nameArg
          = ([SinkAction.geoArrows (quiverFeatures qout2) "endonly",
              SinkAction.colorbar
                ((l0 :: lrest).map (fun lev => resolveCmap registry
                  (cmapArg.getD (CmapArg.named "jet")) (l0 :: lrest).length
                  (cnorm l0 ((l0 :: lrest).getLastD l0) lev)))
                (l0 :: lrest) (nameArg.getD "Vector field")], true)) := by
  obtain ⟨hg, hpr⟩ := quiverLoop_spec tf vertices vf mag scale cmap (List.range nV) ([], []) qout h
  refine ⟨?_, ?_, ?_, ?_⟩
  · intro col
    rw [hg, lookupG_groupFold]
    rw [show lookupG ([] : List (String × List (List Point))) col = [] from rfl]
    rw [List.nil_append, List.filter_map, List.map_map]
    rfl
  · rw [hg, totalParts_groupFold]
    simp [totalParts]
  · intro col p hp
    exact hpr (by intro kp hkp; simp at hkp) (col, p) (lookupP_mem hp)
  · intro registry factory norm2 levelsArg cmapArg nameArg l0 lrest qout2 hL hconv
    unfold addVectorFieldTrace
    dsimp only
    rw [if_pos (by simp)]
    rw [hL]
    dsimp only
    rw [if_neg (by simp), hconv]

/-- Witness for C9: two vertices, two distinct colors, scale `1/2`. -/
def qoutW : List (String × List (List Point)) × List (String × ContourLineProps) :=
  (convertVectorFieldGroups id (fun v => ((v : ℚ), 0)) 2 (fun _ => (1, 1)) (fun v => (v : ℚ))
    (some (1 / 2)) (fun q => if q = 0 then "#a" else "#b")).getD ([], [])

theorem quiver_segments_per_vertex_witness : totalParts qoutW.1 = 2 :=
  (quiver_segments_per_vertex id (fun v => ((v : ℚ), 0)) 2 (fun _ => (1, 1))
    (fun v => (v : ℚ)) (1 / 2) (fun q => if q = 0 then "#a" else "#b") qoutW rfl).2.1

theorem groupInsert_last {κ π : Type} [DecidableEq κ] (g : List (κ × List π)) (k : κ)
    (ps : List π) (p : π) (h : ¬ k ∈ keysOf g) :
    groupInsert (g ++ [(k, ps)]) k p = g ++ [(k, ps ++ [p])] := by
  induction g with
  | nil => simp [groupInsert]
  | cons hd tl ih =>
      obtain ⟨k0, qs⟩ := hd
      simp [keysOf] at h
      simp [groupInsert, h.1, ih (by simpa [keysOf] using h.2)]

theorem groupFold_same_key_acc {κ π : Type} [DecidableEq κ] (k : κ) (ps : List π) :
    ∀ (g : List (κ × List π)) (acc : List π), ¬ k ∈ keysOf g →
      groupFold (g ++ [(k, acc)]) (ps.map (fun p => (k, p))) = g ++ [(k, acc ++ ps)] := by
  induction ps with
  | nil => intro g acc _; simp [groupFold]
  | cons p rest ih =>
      intro g acc hfresh
      have hstep : groupFold (g ++ [(k, acc)]) (((p :: rest)).map (fun q => (k, q)))
          = groupFold (groupInsert (g ++ [(k, acc)]) k p) (rest.map (fun q => (k, q))) := rfl
      rw [hstep, groupInsert_last g k acc p hfresh, ih g (acc ++ [p]) hfresh]
      simp

theorem groupFold_same_key {κ π : Type} [DecidableEq κ] (k : κ) (p : π) (rest : List π)
    (g : List (κ × List π)) (h : ¬ k ∈ keysOf g) :
    groupFold g ((p :: rest).map (fun q => (k, q))) = g ++ [(k, p :: rest)] := by
  have hstep : groupFold g (((p :: rest)).map (fun q => (k, q)))
      = groupFold (groupInsert g k p) (rest.map (fun q => (k, q))) := rfl
  rw [hstep, groupInsert_fresh g k p h, groupFold_same_key_acc k rest g [p] h]
  rfl

/-- The line parts the `"contour"` branch keeps for level index `lev`. -/
def contourValidParts (tf : Point → Point) (gen : TriContourGen) (levels : List ℚ)
    (lev : ℕ) : List (List Point) :=
  ((gen.createContour (levels.getD lev 0)).filter (fun c => 1 < c.length)).map
    (fun c => c.map tf)

/-- The polygon parts the `"contourf"` branch keeps from a band's closed
rings. -/
def contourfValidParts (tf : Point → Point) (rings : List (List Point)) :
    List (List (List Point)) :=
  (rings.filter (fun c => 2 < c.length)).map (fun c => [c.map tf])

theorem contourCurves_spec (tf : Point → Point) (colors : List String) (lev : ℕ)
    (curves : List (List Point)) :
    ∀ s out, contourCurves tf colors lev s curves = some out →
      out.1 = groupFold s.1
        (((curves.filter (fun c => 1 < c.length)).map (fun c => c.map tf)).map
          (fun part => (lev, part)))
      ∧ ((∀ kp ∈ s.2, kp.2 = (⟨colors.getD kp.1 "", 2⟩ : ContourLineProps)) →
          ∀ kp ∈ out.2, kp.2 = (⟨colors.getD kp.1 "", 2⟩ : ContourLineProps)) := by
  induction curves with
  | nil =>
      intro s out h
      injection h with h2
      subst h2
      exact ⟨rfl, fun hinv => hinv⟩
  | cons c rest ih =>
      intro s out h
      unfold contourCurves at h
      by_cases hc : 1 < c.length
      · rw [if_pos hc] at h
        cases hp : propsInsert s.2 lev ⟨colors.getD lev "", 2⟩ with
        | none => rw [hp] at h; cases h
        | some pr =>
            rw [hp] at h
            dsimp only at h
            obtain ⟨hg, hpr⟩ := ih _ out h
            constructor
            · rw [hg]
              simp [hc, groupFold]
            · intro hinv
              refine hpr ?_
              exact propsInsert_inv (fun k => (⟨colors.getD k "", 2⟩ : ContourLineProps)) hp hinv
      · rw [if_neg hc] at h
        obtain ⟨hg, hpr⟩ := ih _ out h
        constructor
        · rw [hg]
          simp [hc]
        · exact hpr

theorem keysOf_append_single {κ π : Type} (g : List (κ × List π)) (k : κ) (ps : List π) :
    keysOf (g ++ [(k, ps)]) = keysOf g ++ [k] := by
  simp [keysOf]

theorem contourLoop_spec (tf : Point → Point) (gen : TriContourGen) (levels : List ℚ)
    (colors : List String) (levs : List ℕ) :
    ∀ s out, contourLoop tf gen levels colors s levs = some out →
      (∀ k ∈ keysOf s.1, ¬ k ∈ levs) → levs.Nodup →
      out.1 = s.1 ++ levs.filterMap (fun lev =>
          match contourValidParts tf gen levels lev with
          | [] => Option.none
          | p :: r => some (lev, p :: r))
      ∧ ((∀ kp ∈ s.2, kp.2 = (⟨colors.getD kp.1 "", 2⟩ : ContourLineProps)) →
          ∀ kp ∈ out.2, kp.2 = (⟨colors.getD kp.1 "", 2⟩ : ContourLineProps)) := by
  induction levs with
  | nil =>
      intro s out h _ _
      injection h with h2
      subst h2
      simp
  | cons lev rest ih =>
      intro s out h hfresh hnodup
      unfold contourLoop at h
      cases hc : contourCurves tf colors lev s (gen.createContour (levels.getD lev 0)) with
      | none => rw [hc] at h; cases h
      | some s2 =>
          rw [hc] at h
          obtain ⟨hg2, hpr2⟩ := contourCurves_spec tf colors lev _ s s2 hc
          have hvalid : ((gen.createContour (levels.getD lev 0)).filter
              (fun c => 1 < c.length)).map (fun c => c.map tf)
              = contourValidParts tf gen levels lev := rfl
          rw [hvalid] at hg2
          have hfreshlev : ¬ lev ∈ keysOf s.1 :=
            fun hm => hfresh lev hm (List.mem_cons_self _ _)
          cases hv : contourValidParts tf gen levels lev with
          | nil =>
              rw [hv] at hg2
              simp only [List.map_nil, groupFold, List.foldl_nil] at hg2
              obtain ⟨hout, hprout⟩ := ih s2 out h
                (by rw [hg2]; intro k hk hkr; exact hfresh k hk (List.mem_cons_of_mem _ hkr))
                (List.Nodup.of_cons hnodup)
              constructor
              · rw [hout, hg2, List.filterMap_cons]
                simp [hv]
              · intro hinv
                exact hprout (hpr2 hinv)
          | cons p r =>
              rw [hv, groupFold_same_key lev p r s.1 hfreshlev] at hg2
              obtain ⟨hout, hprout⟩ := ih s2 out h
                (by
                  rw [hg2, keysOf_append_single]
                  intro k hk hkr
                  rcases List.mem_append.mp hk with hk1 | hk2
                  · exact hfresh k hk1 (List.mem_cons_of_mem _ hkr)
                  · simp at hk2
                    subst hk2
                    exact (List.nodup_cons.mp hnodup).1 hkr)
                (List.Nodup.of_cons hnodup)
              constructor
              · rw [hout, hg2, List.filterMap_cons]
                simp [hv]
              · intro hinv
                exact hprout (hpr2 hinv)

theorem contourfCurves_spec (tf : Point → Point) (colors : List String) (lev : ℕ)
    (rings : List (List Point)) :
    ∀ s out, contourfCurves tf colors lev s rings = some out →
      out.1 = groupFold s.1 ((contourfValidParts tf rings).map (fun part => (lev, part)))
      ∧ ((∀ kp ∈ s.2, kp.2 = (⟨colors.getD kp.1 "", 1⟩ : ContourPolyProps)) →
          ∀ kp ∈ out.2, kp.2 = (⟨colors.getD kp.1 "", 1⟩ : ContourPolyProps)) := by
  induction rings with
  | nil =>
      intro s out h
      injection h with h2
      subst h2
      exact ⟨rfl, fun hinv => hinv⟩
  | cons c rest ih =>
      intro s out h
      unfold contourfCurves at h
      by_cases hc : 2 < c.length
      · rw [if_pos hc] at h
        cases hp : propsInsert s.2 lev ⟨colors.getD lev "", 1⟩ with
        | none => rw [hp] at h; cases h
        | some pr =>
            rw [hp] at h
            dsimp only at h
            obtain ⟨hg, hpr⟩ := ih _ out h
            constructor
            · rw [hg]
              simp [contourfValidParts, hc, groupFold]
            · intro hinv
              refine hpr ?_
              exact propsInsert_inv (fun k => (⟨colors.getD k "", 1⟩ : ContourPolyProps)) hp hinv
      · rw [if_neg hc] at h
        obtain ⟨hg, hpr⟩ := ih _ out h
        constructor
        · rw [hg]
          simp [contourfValidParts, hc]
        · exact hpr

theorem contourfLoop_spec (tf : Point → Point) (gen : TriContourGen) (levels : List ℚ)
    (colors : List String) (levs : List ℕ) :
    ∀ s out, contourfLoop tf gen levels colors s levs = some out →
      (∀ k ∈ keysOf s.1, ¬ k ∈ levs) → levs.Nodup →
      out.1 = s.1 ++ levs.filterMap (fun lev =>
          match contourfRings gen levels lev with
          | Option.none => Option.none
          | some rings =>
              match contourfValidParts tf rings with
              | [] => Option.none
              | p :: r => some (lev, p :: r))
      ∧ ((∀ kp ∈ s.2, kp.2 = (⟨colors.getD kp.1 "", 1⟩ : ContourPolyProps)) →
          ∀ kp ∈ out.2, kp.2 = (⟨colors.getD kp.1 "", 1⟩ : ContourPolyProps)) := by
  induction levs with
  | nil =>
      intro s out h _ _
      injection h with h2
      subst h2
      simp
  | cons lev rest ih =>
      intro s out h hfresh hnodup
      unfold contourfLoop at h
      cases hr : contourfRings gen levels lev with
      | none => rw [hr] at h; cases h
      | some rings =>
          rw [hr] at h
          dsimp only at h
          cases hc : contourfCurves tf colors lev s rings with
          | none => rw [hc] at h; cases h
          | some s2 =>
              rw [hc] at h
              obtain ⟨hg2, hpr2⟩ := contourfCurves_spec tf colors lev rings s s2 hc
              have hfreshlev : ¬ lev ∈ keysOf s.1 :=
                fun hm => hfresh lev hm (List.mem_cons_self _ _)
              cases hv : contourfValidParts tf rings with
              | nil =>
                  rw [hv] at hg2
                  simp only [List.map_nil, groupFold, List.foldl_nil] at hg2
                  obtain ⟨hout, hprout⟩ := ih s2 out h
                    (by rw [hg2]; intro k hk hkr; exact hfresh k hk (List.mem_cons_of_mem _ hkr))
                    (List.Nodup.of_cons hnodup)
                  constructor
                  · rw [hout, hg2, List.filterMap_cons]
                    simp [hr, hv]
                  · intro hinv
                    exact hprout (hpr2 hinv)
              | cons p r =>
                  rw [hv, groupFold_same_key lev p r s.1 hfreshlev] at hg2
                  obtain ⟨hout, hprout⟩ := ih s2 out h
                    (by
                      rw [hg2, keysOf_append_single]
                      intro k hk hkr
                      rcases List.mem_append.mp hk with hk1 | hk2
                      · exact hfresh k hk1 (List.mem_cons_of_mem _ hkr)
                      · simp at hk2
                        subst hk2
                        exact (List.nodup_cons.mp hnodup).1 hkr)
                    (List.Nodup.of_cons hnodup)
                  constructor
                  · rw [hout, hg2, List.filterMap_cons]
                    simp [hr, hv]
                  · intro hinv
                    exact hprout (hpr2 hinv)

theorem mapM_closeRing_mem :
    ∀ (pieces rings : List (List Point)), pieces.mapM closeRing = some rings →
      ∀ r ∈ rings, ∃ p ∈ pieces, closeRing p = some r := by
  intro pieces
  induction pieces with
  | nil =>
      intro rings h r hr
      rw [List.mapM_nil] at h
      injection h with h2
      subst h2
      simp at hr
  | cons a l ih =>
      intro rings h r hr
      rw [List.mapM_cons] at h
      cases ha : closeRing a with
      | none => rw [ha] at h; cases h
      | some b =>
          rw [ha] at h
          cases hl : l.mapM closeRing with
          | none => rw [hl] at h; cases h
          | some bs =>
              rw [hl] at h
              simp at h
              subst h
              rcases List.mem_cons.mp hr with hr1 | hr2
              · exact ⟨a, List.mem_cons_self _ _, hr1 ▸ ha⟩
              · obtain ⟨p, hp, hcp⟩ := ih bs hl r hr2
                exact ⟨p, List.mem_cons_of_mem _ hp, hcp⟩

theorem closeRing_spec {c r : List Point} (h : closeRing c = some r) :
    r.head? = r.getLast? ∧ r.length = c.length + 1 := by
  cases c with
  | nil => cases h
  | cons p rest =>
      unfold closeRing at h
      injection h with h2
      subst h2
      constructor
      · show ((p :: rest) ++ [p]).head? = ((p :: rest) ++ [p]).getLast?
        rw [List.getLast?_concat]
        rfl
      · simp

/-- Counterexample oracle for C4: the filled contour of the single band is
one single-point ring. -/
def genCE : TriContourGen := ⟨fun _ => [], fun _ _ => ([(0, 0)], [1])⟩

/-- C4 counterexample: with levels `[0, 1]` (one consecutive pair) the
external routine returns a single-point ring for the band; after closing it
has only 2 points and is discarded, so the filled-band conversion produces
zero polygon groups although the claim demands exactly one group per
consecutive level pair. -/
theorem contour_band_counterexample :
    convertScalarContourf id genCE [0, 1] ["#c"] = some ([], [])
    ∧ (([], []) : List (ℕ × List (List (List Point)))
        × List (ℕ × ContourPolyProps)).1.length ≠ ([(0 : ℚ), 1]).length - 1 := by
  exact ⟨rfl, by decide⟩

/-- C4 (amended): filled-band mode produces at most `n` polygon groups for
levels `[L0..Ln]` — exactly one per consecutive level pair whose closed
rings include at least one with more than 2 points — each group holding the
band's color at full opacity and rendering with no stroke, every kept ring
being closed (first point repeated at the end) and rings with 2 or fewer
points discarded; iso-line mode produces at most `n+1` line groups — one
per level with at least one polyline of at least 2 points — each with
weight 2 and the level's color, single-point polylines discarded. -/
theorem contour_band_group_structure (tf : Point → Point) (gen : TriContourGen)
    (levels : List ℚ) (colors : List String) :
    (∀ outF, convertScalarContourf tf gen levels colors = some outF →
      outF.1 = (List.range (levels.length - 1)).filterMap (fun lev =>
          match contourfRings gen levels lev with
          | Option.none => Option.none
          | some rings =>
              match contourfValidParts tf rings with
              | [] => Option.none
              | p :: r => some (lev, p :: r))
      ∧ outF.1.length ≤ levels.length - 1
      ∧ (∀ lev pr2, lookupP outF.2 lev = some pr2
          → pr2 = (⟨colors.getD lev "", 1⟩ : ContourPolyProps))
      ∧ (∀ entry ∈ outF.1, ∀ part ∈ entry.2,
          ∃ ring : List Point, part = [ring.map tf] ∧ 2 < ring.length
            ∧ ring.head? = ring.getLast?))
    ∧ (∀ outL, convertScalarContour tf gen levels colors = some outL →
      outL.1 = (List.range levels.length).filterMap (fun lev =>
          match contourValidParts tf gen levels lev with
          | [] => Option.none
          | p :: r => some (lev, p :: r))
      ∧ outL.1.length ≤ levels.length
      ∧ (∀ lev pr2, lookupP outL.2 lev = some pr2
          → pr2 = (⟨colors.getD lev "", 2⟩ : ContourLineProps))
      ∧ (∀ entry ∈ outL.1, ∀ part ∈ entry.2,
          ∃ c : List Point, part = c.map tf ∧ 1 < c.length))
    ∧ (∀ coords pp, (scalarStyleFunction (ScalarFeature.poly coords pp)).stroke = some false
        ∧ (scalarStyleFunction (ScalarFeature.poly coords pp)).fillOpacity
            = some pp.fillOpacity) := by
  refine ⟨?_, ?_, fun coords pp => ⟨rfl, rfl⟩⟩
  · intro outF hF
    obtain ⟨hout, hpr⟩ := contourfLoop_spec tf gen levels colors
      (List.range (levels.length - 1)) ([], []) outF hF
      (by intro k hk; simp [keysOf] at hk) (List.nodup_range _)
    rw [List.nil_append] at hout
    refine ⟨hout, ?_, ?_, ?_⟩
    · rw [hout]
      exact le_trans (List.length_filterMap_le _ _) (by simp)
    · intro lev pr2 hlk
      exact hpr (by intro kp hkp; simp at hkp) (lev, pr2) (lookupP_mem hlk)
    · intro entry hentry part hpart
      rw [hout] at hentry
      obtain ⟨lev, _, hml⟩ := List.mem_filterMap.mp hentry
      cases hr : contourfRings gen levels lev with
      | none => rw [hr] at hml; cases hml
      | some rings =>
          rw [hr] at hml
          dsimp only at hml
          cases hv : contourfValidParts tf rings with
          | nil => rw [hv] at hml; cases hml
          | cons p r =>
              rw [hv] at hml
              injection hml with hml2
              subst hml2
              have hpart2 : part ∈ contourfValidParts tf rings := by
                rw [hv]; exact hpart
              obtain ⟨ring, hringf, hpeq⟩ := List.mem_map.mp hpart2
              have hringmem : ring ∈ rings ∧ 2 < ring.length := by
                have := List.mem_filter.mp hringf
                exact ⟨this.1, by simpa using this.2⟩
              unfold contourfRings at hr
              obtain ⟨piece, _, hclose⟩ := mapM_closeRing_mem _ rings hr ring hringmem.1
              exact ⟨ring, hpeq.symm, hringmem.2, (closeRing_spec hclose).1⟩
  · intro outL hL
    obtain ⟨hout, hpr⟩ := contourLoop_spec tf gen levels colors
      (List.range levels.length) ([], []) outL hL
      (by intro k hk; simp [keysOf] at hk) (List.nodup_range _)
    rw [List.nil_append] at hout
    refine ⟨hout, ?_, ?_, ?_⟩
    · rw [hout]
      exact le_trans (List.length_filterMap_le _ _) (by simp)
    · intro lev pr2 hlk
      exact hpr (by intro kp hkp; simp at hkp) (lev, pr2) (lookupP_mem hlk)
    · intro entry hentry part hpart
      rw [hout] at hentry
      obtain ⟨lev, _, hml⟩ := List.mem_filterMap.mp hentry
      cases hv : contourValidParts tf gen levels lev with
      | nil => rw [hv] at hml; cases hml
      | cons p r =>
          rw [hv] at hml
          injection hml with hml2
          subst hml2
          have hpart2 : part ∈ contourValidParts tf gen levels lev := by
            rw [hv]; exact hpart
          obtain ⟨c, hcf, hpeq⟩ := List.mem_map.mp hpart2
          exact ⟨c, hpeq.symm, by simpa using (List.mem_filter.mp hcf).2⟩

/-- Witness oracle and outputs for C4 at levels `[0, 1]`. -/
def genW : TriContourGen :=
  ⟨fun _ => [[(0, 0), (1, 1)]], fun _ _ => ([(0, 0), (1, 0), (0, 1)], [1, 0, 0])⟩

def outLW : List (ℕ × List (List Point)) × List (ℕ × ContourLineProps) :=
  (convertScalarContour id genW [0, 1] ["#c", "#d"]).getD ([], [])

def outFW : List (ℕ × List (List (List Point))) × List (ℕ × ContourPolyProps) :=
  (convertScalarContourf id genW [0, 1] ["#c", "#d"]).getD ([], [])

/-- Witness for the amended C4 theorem at a concrete two-level input. -/
theorem contour_band_group_structure_witness :
    outFW.1.length ≤ ([(0 : ℚ), 1]).length - 1 ∧ outLW.1.length ≤ ([(0 : ℚ), 1]).length := by
  constructor
  · exact (((contour_band_group_structure id genW [0, 1] ["#c", "#d"]).1) outFW rfl).2.1
  · exact (((contour_band_group_structure id genW [0, 1] ["#c", "#d"]).2.1) outLW rfl).2.1

theorem meshLoop_lineProps_canonical (ctx : MeshCtx) (rows : List MeshRow) :
    ∀ st st2, meshLoop ctx st rows = some st2 →
      (∀ kp ∈ st.lineProps, kp.2 = faceProps ctx kp.1) →
      ∀ kp ∈ st2.lineProps, kp.2 = faceProps ctx kp.1 := by
  induction rows with
  | nil =>
      intro st st2 h hinv
      injection h with h2
      subst h2
      exact hinv
  | cons row rest ih =>
      intro st st2 h hinv
      unfold meshLoop at h
      cases hp : processCell ctx st row with
      | none => rw [hp] at h; cases h
      | some stm =>
          rw [hp] at h
          exact ih stm st2 h ((processCell_spec hp).2.2.2.2.2.2 hinv)

/-- C3: all geometry parts merged under one group key carry identical style
properties, for every key kind: cell keys (two cells with the same
`(marker, uniform)` key always store the same properties, and a would-be
conflict makes the whole conversion fail with the assertion rather than
being silently resolved), standalone face markers, domain segment markers,
contour level indices (both modes) and quiver color strings (for these the
stored properties are a function of the key). -/
theorem group_style_consistency :
    (∀ (ctx : MeshCtx) (cells : List (ℕ × ℕ × ℕ)) (cms : List ℕ)
        (fms : List (ℕ × ℕ × ℕ)) (st : MeshState),
        convertMeshGroups ctx cells cms fms = some st →
        (∀ r1 ∈ cells.zip (cms.zip fms), ∀ r2 ∈ cells.zip (cms.zip fms),
          rowKey r1 = rowKey r2 →
          cellProps ctx r1.2.1 r1.2.2 = cellProps ctx r2.2.1 r2.2.2)
        ∧ (∀ f p, lookupP st.lineProps f = some p → p = faceProps ctx f))
    ∧ (∀ (ctx : MeshCtx) (cells : List (ℕ × ℕ × ℕ)) (cms : List ℕ)
        (fms : List (ℕ × ℕ × ℕ)),
        (∃ r1 ∈ cells.zip (cms.zip fms), ∃ r2 ∈ cells.zip (cms.zip fms),
          rowKey r1 = rowKey r2
          ∧ cellProps ctx r1.2.1 r1.2.2 ≠ cellProps ctx r2.2.1 r2.2.2) →
        convertMeshGroups ctx cells cms fms = Option.none)
    ∧ (∀ (ctx : DomainCtx) (vertices : List Point) (sm : List ℕ)
        (out : List (ℕ × List (List Point)) × List (ℕ × DomainProps)),
        convertDomainGroups ctx vertices sm = some out →
        ∀ mk p, lookupP out.2 mk = some p → p = domainProps ctx mk)
    ∧ (∀ (tf : Point → Point) (gen : TriContourGen) (levels : List ℚ) (colors : List String)
        (outL : List (ℕ × List (List Point)) × List (ℕ × ContourLineProps)),
        convertScalarContour tf gen levels colors = some outL →
        ∀ lev p, lookupP outL.2 lev = some p
          → p = (⟨colors.getD lev "", 2⟩ : ContourLineProps))
    ∧ (∀ (tf : Point → Point) (gen : TriContourGen) (levels : List ℚ) (colors : List String)
        (outF : List (ℕ × List (List (List Point))) × List (ℕ × ContourPolyProps)),
        convertScalarContourf tf gen levels colors = some outF →
        ∀ lev p, lookupP outF.2 lev = some p
          → p = (⟨colors.getD lev "", 1⟩ : ContourPolyProps))
    ∧ (∀ (tf : Point → Point) (vertices : ℕ → Point) (nV : ℕ) (vf : ℕ → Point)
        (mag : ℕ → ℚ) (scale : ℚ) (cmap : ℚ → String)
        (qout : List (String × List (List Point)) × List (String × ContourLineProps)),
        convertVectorFieldGroups tf vertices nV vf mag (some scale) cmap = some qout →
        ∀ col p, lookupP qout.2 col = some p → p = (⟨col, 2⟩ : ContourLineProps)) := by
  have hmesh : ∀ (ctx : MeshCtx) (cells : List (ℕ × ℕ × ℕ)) (cms : List ℕ)
      (fms : List (ℕ × ℕ × ℕ)) (st : MeshState),
      convertMeshGroups ctx cells cms fms = some st →
      ∀ r1 ∈ cells.zip (cms.zip fms), ∀ r2 ∈ cells.zip (cms.zip fms),
        rowKey r1 = rowKey r2 →
        cellProps ctx r1.2.1 r1.2.2 = cellProps ctx r2.2.1 r2.2.2 := by
    intro ctx cells cms fms st h r1 h1 r2 h2 hk
    have e1 := meshLoop_polyProps_of_mem ctx _ emptyMeshState st h r1 h1
    have e2 := meshLoop_polyProps_of_mem ctx _ emptyMeshState st h r2 h2
    rw [hk] at e1
    rw [e1] at e2
    injection e2
  refine ⟨?_, ?_, ?_, ?_, ?_, ?_⟩
  · intro ctx cells cms fms st h
    refine ⟨hmesh ctx cells cms fms st h, ?_⟩
    intro f p hp
    exact meshLoop_lineProps_canonical ctx _ emptyMeshState st h
      (by intro kp hkp; simp [emptyMeshState] at hkp) (f, p) (lookupP_mem hp)
  · intro ctx cells cms fms hconflict
    obtain ⟨r1, h1, r2, h2, hk, hne2⟩ := hconflict
    cases hres : convertMeshGroups ctx cells cms fms with
    | none => rfl
    | some st => exact absurd (hmesh ctx cells cms fms st hres r1 h1 r2 h2 hk) hne2
  · intro ctx vertices sm out h mk p hp
    cases vertices with
    | nil => cases h
    | cons v0 vrest =>
        cases sm with
        | nil => cases h
        | cons m0 smTail =>
            unfold convertDomainGroups at h
            dsimp only at h
            have hinv := domainLoop_props ctx ((m0 :: smTail).zip (vrest.map ctx.tf))
              ⟨[], [], m0, [ctx.tf v0]⟩ out h (by intro kp hkp; simp at hkp)
            exact hinv (mk, p) (lookupP_mem hp)
  · intro tf gen levels colors outL h lev p hp
    obtain ⟨_, hpr⟩ := contourLoop_spec tf gen levels colors (List.range levels.length)
      ([], []) outL h (by intro k hk; simp [keysOf] at hk) (List.nodup_range _)
    exact hpr (by intro kp hkp; simp at hkp) (lev, p) (lookupP_mem hp)
  · intro tf gen levels colors outF h lev p hp
    obtain ⟨_, hpr⟩ := contourfLoop_spec tf gen levels colors
      (List.range (levels.length - 1)) ([], []) outF h
      (by intro k hk; simp [keysOf] at hk) (List.nodup_range _)
    exact hpr (by intro kp hkp; simp at hkp) (lev, p) (lookupP_mem hp)
  · intro tf vertices nV vf mag scale cmap qout h col p hp
    obtain ⟨_, hpr⟩ := quiverLoop_spec tf vertices vf mag scale cmap (List.range nV)
      ([], []) qout h
    exact hpr (by intro kp hkp; simp at hkp) (col, p) (lookupP_mem hp)

/-- Witness for C3: two uniform cells with equal key `(0, true)` but
different shared face markers (hence different boundary colors) make the
mesh conversion fail. -/
theorem group_style_consistency_witness :
    convertMeshGroups ctxW cellsW [0, 0] [(1, 1, 1), (2, 2, 2)] = Option.none := by
  apply group_style_consistency.2.1 ctxW cellsW [0, 0] [(1, 1, 1), (2, 2, 2)]
  refine ⟨((0, 1, 2), 0, (1, 1, 1)), by decide, ((0, 2, 3), 0, (2, 2, 2)), by decide,
    by decide, by decide⟩

/-- C7: a render call that fails hands no partial geometry to the sink —
for each of the four entry points, an unsuccessful trace is empty.  (All
shape and legend assertions either run before the geometry is added, or —
for the post-geometry legend shape assertions — provably never fire.) -/
theorem failed_render_emits_nothing :
    (∀ (tf : Point → Point) (vertices : ℕ → Point) (cells : List (ℕ × ℕ × ℕ))
        (cmArg : Option (List ℕ)) (fmArg : Option (List (ℕ × ℕ × ℕ)))
        (ccArg fcArg : OptArg String) (fwArg : OptArg ℤ),
      (addMeshTrace tf vertices cells cmArg fmArg ccArg fcArg fwArg).2 = false →
      (addMeshTrace tf vertices cells cmArg fmArg ccArg fcArg fwArg).1 = [])
    ∧ (∀ (registry : String → ℕ → (ℚ → String)) (factory : (ℕ → ℚ) → TriContourGen)
        (tf : Point → Point) (nV : ℕ) (field : ℕ → ℚ) (modeArg : Option String)
        (levelsArg : Option LevelsArg) (cmapArg : Option CmapArg) (nameArg : Option String),
      (addScalarFieldTrace registry factory tf nV field modeArg levelsArg cmapArg nameArg).2
          = false →
      (addScalarFieldTrace registry factory tf nV field modeArg levelsArg cmapArg nameArg).1
          = [])
    ∧ (∀ (tf : Point → Point) (vertices : List Point) (smArg : Option (List ℕ))
        (colorsArg : OptArg String) (weightsArg : OptArg ℤ),
      (addDomainTrace tf vertices smArg colorsArg weightsArg).2 = false →
      (addDomainTrace tf vertices smArg colorsArg weightsArg).1 = [])
    ∧ (∀ (registry : String → ℕ → (ℚ → String)) (factory : (ℕ → ℚ) → TriContourGen)
        (tf : Point → Point) (vertices : ℕ → Point) (nV : ℕ) (vf : ℕ → Point)
        (norm2 : Point → ℚ) (modeArg : Option String) (levelsArg : Option LevelsArg)
        (scaleArg : Option ℚ) (cmapArg : Option CmapArg) (nameArg : Option String),
      (addVectorFieldTrace registry factory tf vertices nV vf norm2 modeArg levelsArg
          scaleArg cmapArg nameArg).2 = false →
      (addVectorFieldTrace registry factory tf vertices nV vf norm2 modeArg levelsArg
          scaleArg cmapArg nameArg).1 = []) := by
  have hscalar : ∀ (registry : String → ℕ → (ℚ → String))
      (factory : (ℕ → ℚ) → TriContourGen) (tf : Point → Point) (nV : ℕ) (field : ℕ → ℚ)
      (modeArg : Option String) (levelsArg : Option LevelsArg) (cmapArg : Option CmapArg)
      (nameArg : Option String),
      (addScalarFieldTrace registry factory tf nV field modeArg levelsArg cmapArg nameArg).2
          = false →
      (addScalarFieldTrace registry factory tf nV field modeArg levelsArg cmapArg nameArg).1
          = [] := by
    intro registry factory tf nV field modeArg levelsArg cmapArg nameArg
    unfold addScalarFieldTrace
    dsimp only
    by_cases hm : modeArg.getD "contourf" = "contourf" ∨ modeArg.getD "contourf" = "contour"
    · rw [if_pos hm]
      cases hL : resolveLevels nV field (levelsArg.getD (LevelsArg.count 10)) with
      | none => intro _; rfl
      | some levels =>
          cases levels with
          | nil => intro _; rfl
          | cons l0 rest =>
              dsimp only
              cases hc : convertScalarFieldToGeojson tf (factory field)
                  (modeArg.getD "contourf") (l0 :: rest)
                  ((l0 :: rest).map (fun lev =>
                    resolveCmap registry (cmapArg.getD (CmapArg.named "jet"))
                      (l0 :: rest).length (cnorm l0 ((l0 :: rest).getLastD l0) lev))) with
              | none => intro _; rfl
              | some feats => intro hcon; cases hcon
    · rw [if_neg hm]
      intro _
      rfl
  refine ⟨?_, hscalar, ?_, ?_⟩
  · intro tf vertices cells cmArg fmArg ccArg fcArg fwArg
    unfold addMeshTrace
    cases hm1 : (match cmArg with
        | Option.none => some (List.replicate cells.length 0)
        | some cm => if cm.length = cells.length then some cm else Option.none) with
    | none => intro _; rfl
    | some cm =>
        cases hm2 : (match fmArg with
            | Option.none => some (List.replicate cells.length ((0, 0, 0) : ℕ × ℕ × ℕ))
            | some fm => if fm.length = cells.length then some fm else Option.none) with
        | none => intro _; rfl
        | some fm =>
            dsimp only
            cases hu1 : uniqueSorted cm with
            | nil => intro _; rfl
            | cons mc restc =>
                cases hu2 : uniqueFaceMarkers fm with
                | nil => intro _; rfl
                | cons mf restf =>
                    dsimp only
                    cases hc : convertMeshToGeojson
                        (meshCtxOf tf vertices ccArg fcArg fwArg cm fm) cells cm fm with
                    | none => intro _; rfl
                    | some feats =>
                        dsimp only
                        rw [cellLegendStep_spec ccArg (mc :: restc)
                          (hu1 ▸ sorted_uniqueSorted cm)]
                        dsimp only
                        rw [faceLegendStep_spec fcArg "black" (mf :: restf)
                          (hu2 ▸ sorted_uniqueSorted (fm.flatMap (fun t => [t.1, t.2.1, t.2.2])))]
                        intro hcon
                        cases hcon
  · intro tf vertices smArg colorsArg weightsArg
    unfold addDomainTrace
    cases hm1 : (match smArg with
        | Option.none => some (List.replicate (vertices.length - 1) 0)
        | some sm => if sm.length = vertices.length - 1 then some sm else Option.none) with
    | none => intro _; rfl
    | some sm =>
        dsimp only
        cases hu : uniqueSorted sm with
        | nil => intro _; rfl
        | cons ms restm =>
            dsimp only
            cases hc : convertDomainGroups (domainCtxOf tf colorsArg weightsArg sm)
                vertices sm with
            | none => intro _; rfl
            | some out =>
                dsimp only
                rw [faceLegendStep_spec colorsArg "black" (ms :: restm)
                  (hu ▸ sorted_uniqueSorted sm)]
                intro hcon
                cases hcon
  · intro registry factory tf vertices nV vf norm2 modeArg levelsArg scaleArg cmapArg nameArg
    unfold addVectorFieldTrace
    dsimp only
    by_cases hm : modeArg.getD "contourf" = "contourf" ∨ modeArg.getD "contourf" = "contour"
        ∨ modeArg.getD "contourf" = "quiver"
    · rw [if_pos hm]
      cases hL : resolveLevels nV (fun v => norm2 (vf v)) (levelsArg.getD (LevelsArg.count 10)) with
      | none => intro _; rfl
      | some levels =>
          cases levels with
          | nil => intro _; rfl
          | cons l0 rest =>
              dsimp only
              by_cases hm2 : modeArg.getD "contourf" = "contourf"
                  ∨ modeArg.getD "contourf" = "contour"
              · rw [if_pos hm2]
                exact hscalar registry factory tf nV (fun v => norm2 (vf v))
                  (some (modeArg.getD "contourf")) (some (LevelsArg.values (l0 :: rest)))
                  (some (CmapArg.resolved (resolveCmap registry
                    (cmapArg.getD (CmapArg.named "jet")) (l0 :: rest).length)))
                  (some (nameArg.getD "Vector field"))
              · rw [if_neg hm2]
                cases hq : convertVectorFieldGroups tf vertices nV vf
                    (fun v => norm2 (vf v)) scaleArg
                    (fun lev => resolveCmap registry (cmapArg.getD (CmapArg.named "jet"))
                      (l0 :: rest).length (cnorm l0 ((l0 :: rest).getLastD l0) lev)) with
                | none => intro _; rfl
                | some qout => intro hcon; cases hcon
    · rw [if_neg hm]
      intro _
      rfl

/-- Witness for C7: the mesh call on an empty cell array fails (its marker
array is empty, so `np.min` in the normalizer raises) and emits nothing. -/
theorem failed_render_emits_nothing_witness :
    (addMeshTrace id (fun _ => ((0 : ℚ), (0 : ℚ))) [] Option.none Option.none
      OptArg.none OptArg.none OptArg.none).1 = [] :=
  failed_render_emits_nothing.1 id (fun _ => ((0 : ℚ), (0 : ℚ))) [] Option.none Option.none
    OptArg.none OptArg.none OptArg.none (by decide)

end FEMlium
